import Mathlib

/-!
# Verification of the deno-html-template-engine passes

Shallow embedding of `src/template.ts`.  Documents are `List Char` values
(the engine is a pure text rewriter working on JavaScript strings).  The
regular-expression scans of the source are embedded as deterministic
left-to-right scanners: every regex used by the source is backtracking-free
because each greedy sub-pattern is followed by a character its class cannot
match, so maximal-munch scanning coincides with the JavaScript semantics.

External collaborators (the injectable file reader, `node:path.join`, and the
logging sink) are modelled as explicit parameters / returned data:
 * the reader becomes `Reader := List Char → Option (List Char)` (`none` is a
   rejected promise, i.e. the thrown read error);
 * `logError` calls become `LogEntry` values accumulated in the result;
 * the paths handed to the reader are also collected, so that claims about
   the reader never being invoked can be stated.
-/

namespace TemplateEngine

/-- JavaScript `\s` / `String.prototype.trim` white-space set, by code point:
space, tab, LF, CR, VT, FF, NBSP (160), BOM (65279), Ogham space (5760),
the Unicode EN-QUAD..HAIR-SPACE block (8192-8202), LS (8232), PS (8233),
NNBSP (8239), MMSP (8287) and ideographic space (12288). -/
def isJsSpace (c : Char) : Bool :=
  c.toNat = 32 || c.toNat = 9 || c.toNat = 10 || c.toNat = 13 ||
  c.toNat = 11 || c.toNat = 12 || c.toNat = 160 || c.toNat = 65279 ||
  c.toNat = 5760 || (8192 ≤ c.toNat && c.toNat ≤ 8202) ||
  c.toNat = 8232 || c.toNat = 8233 || c.toNat = 8239 || c.toNat = 8287 ||
  c.toNat = 12288

/-- JavaScript `\w`: ASCII letters, digits and underscore. -/
def isJsWordChar (c : Char) : Bool :=
  (97 ≤ c.toNat && c.toNat ≤ 122) || (65 ≤ c.toNat && c.toNat ≤ 90) ||
  (48 ≤ c.toNat && c.toNat ≤ 57) || c.toNat = 95

/-- JavaScript line terminators (what `^` in multiline mode anchors after):
LF, CR, LS, PS. -/
def isLineTerm (c : Char) : Bool :=
  c.toNat = 10 || c.toNat = 13 || c.toNat = 8232 || c.toNat = 8233

/-- Characters matched by the literal class `[\r\n]` of the minifier. -/
def isCrLf (c : Char) : Bool :=
  c.toNat = 13 || c.toNat = 10

theorem isJsSpace_of_isLineTerm {c : Char} (h : isLineTerm c = true) :
    isJsSpace c = true := by
  simp only [isLineTerm, Bool.or_eq_true, decide_eq_true_eq] at h
  simp only [isJsSpace, Bool.or_eq_true, Bool.and_eq_true, decide_eq_true_eq]
  omega

theorem not_isJsSpace_of_isJsWordChar {c : Char} (h : isJsWordChar c = true) :
    isJsSpace c = false := by
  simp only [isJsWordChar, Bool.or_eq_true, Bool.and_eq_true, decide_eq_true_eq] at h
  simp only [isJsSpace, Bool.or_eq_false_iff, Bool.and_eq_false_iff,
    decide_eq_false_iff_not, Bool.or_eq_false_iff] at *
  omega

/-- Scalar values a view model may hold (`string | number | boolean`).
Numbers are modelled as integers. -/
inductive Value : Type where
  | str (s : List Char)
  | num (n : Int)
  | bool (b : Bool)
deriving DecidableEq

/-- Stringification `String(value)`: the text representation substituted for
a placeholder. -/
def jsString : Value → List Char
  | .str s => s
  | .num n => (toString n).data
  | .bool b => if b then "true".data else "false".data

/-- JavaScript truthiness of a scalar value. -/
def truthy : Value → Bool
  | .str s => !s.isEmpty
  | .num n => n ≠ 0
  | .bool b => b

/-- A view model: key lookup returning `none` for an absent key
(`viewModel[key] === undefined`). -/
def ViewModel : Type := List Char → Option Value

/-- Truthiness of `viewModel[key]`: absent keys and falsy values collapse. -/
def truthyOpt (v : Option Value) : Bool :=
  match v with
  | some v => truthy v
  | none => false

/-- The injectable file reader; `none` models a rejected read. -/
def Reader : Type := List Char → Option (List Char)

/-- Operation tag of a log message (second argument of `logError`). -/
inductive LogTag : Type where
  | inc
  | incIf
deriving DecidableEq

/-- One `logError` call: the failing file name (which the message text
interpolates) and the operation tag.  The message text of the underlying
read error comes from the external reader and is not modelled. -/
structure LogEntry : Type where
  file : List Char
  tag : LogTag
deriving DecidableEq

/-- JavaScript trim on a character list (used for `match[n].trim()`). -/
def jsTrim (l : List Char) : List Char :=
  ((l.dropWhile isJsSpace).reverse.dropWhile isJsSpace).reverse

/-- Node's `path.join` is external to this repository; it is modelled as plain
concatenation with a separator, except that a `"."` base directory (used
throughout the repository's tests) resolves to the bare file name. -/
def joinPath (baseDir fn : List Char) : List Char :=
  if baseDir = ".".data then fn else baseDir ++ '/' :: fn

/-! ## Placeholder substitution (`replacePlaceholders`, template.ts:80-89)

Regex: `/<!--\s*(\w+)\s*-->/g` with a replacer returning
`viewModel[key] !== undefined ? String(viewModel[key]) : match`. -/

/-- Match `<!--\s*(\w+)\s*-->` at the head of the list.  Returns the
captured key, the exact matched text and the remaining input. -/
def placeholderMatch (l : List Char) : Option (List Char × List Char × List Char) :=
  match l with
  | '<' :: '!' :: '-' :: '-' :: t =>
    let ws1 := t.takeWhile isJsSpace
    let t1 := t.dropWhile isJsSpace
    let key := t1.takeWhile isJsWordChar
    let t2 := t1.dropWhile isJsWordChar
    if key.isEmpty then none
    else
      let ws2 := t2.takeWhile isJsSpace
      let t3 := t2.dropWhile isJsSpace
      match t3 with
      | '-' :: '-' :: '>' :: rest =>
        some (key, '<' :: '!' :: '-' :: '-' :: (ws1 ++ key ++ ws2 ++ ['-', '-', '>']), rest)
      | _ => none
  | _ => none

theorem length_dropWhile_le (p : Char → Bool) (l : List Char) :
    (l.dropWhile p).length ≤ l.length := by
  induction l with
  | nil => simp
  | cons c t ih =>
    by_cases h : p c
    · rw [List.dropWhile_cons_of_pos h]; exact Nat.le_succ_of_le ih
    · rw [List.dropWhile_cons_of_neg h]

theorem placeholderMatch_append {l key m rest : List Char}
    (h : placeholderMatch l = some (key, m, rest)) :
    l = m ++ rest ∧ m ≠ [] := by
  simp only [placeholderMatch] at h
  split at h
  next t =>
    split at h
    · exact absurd h (by simp)
    · split at h
      next rest' heq =>
        simp only [Option.some.injEq, Prod.mk.injEq] at h
        obtain ⟨rfl, rfl, rfl⟩ := h
        refine ⟨?_, by simp⟩
        have ht : t = t.takeWhile isJsSpace ++
            ((t.dropWhile isJsSpace).takeWhile isJsWordChar ++
              (((t.dropWhile isJsSpace).dropWhile isJsWordChar).takeWhile isJsSpace ++
                (((t.dropWhile isJsSpace).dropWhile isJsWordChar).dropWhile isJsSpace))) := by
          rw [List.takeWhile_append_dropWhile, List.takeWhile_append_dropWhile,
            List.takeWhile_append_dropWhile]
        rw [heq] at ht
        simp only [List.cons_append, List.append_assoc, List.cons.injEq, true_and]
        conv_lhs => rw [ht]
        simp [List.append_assoc]
      · exact absurd h (by simp)
  · exact absurd h (by simp)

/-- Scan for placeholder tokens.  The `skip` counter consumes the characters
of an already-replaced match without re-examining them, which keeps the
recursion structural; positions inside a match are never match starts,
exactly as for a JavaScript global-regex `replace`. -/
def replacePlaceholdersGo (viewModel : ViewModel) : List Char → Nat → List Char
  | [], _ => []
  | _ :: t, skip + 1 => replacePlaceholdersGo viewModel t skip
  | c :: t, 0 =>
    match placeholderMatch (c :: t) with
    | some (key, m, _rest) =>
      (match viewModel key with
       | some v => jsString v
       | none => m) ++ replacePlaceholdersGo viewModel t (m.length - 1)
    | none => c :: replacePlaceholdersGo viewModel t 0

/-- The placeholder pass: left-to-right scan of the document, replacing each
match through the view-model lookup and leaving non-matching text verbatim. -/
def replacePlaceholders (html : List Char) (viewModel : ViewModel) : List Char :=
  replacePlaceholdersGo viewModel html 0

theorem replacePlaceholdersGo_skip (viewModel : ViewModel) (pre l : List Char) :
    replacePlaceholdersGo viewModel (pre ++ l) pre.length =
      replacePlaceholdersGo viewModel l 0 := by
  induction pre with
  | nil => rfl
  | cons c t ih => simpa [replacePlaceholdersGo] using ih

/-- Step equation at a match: the replacement is emitted and scanning
continues right after the matched text. -/
theorem replacePlaceholdersGo_match {l key m rest : List Char} (viewModel : ViewModel)
    (h : placeholderMatch l = some (key, m, rest)) :
    replacePlaceholdersGo viewModel l 0 =
      (match viewModel key with
       | some v => jsString v
       | none => m) ++ replacePlaceholdersGo viewModel rest 0 := by
  obtain ⟨hl, hm⟩ := placeholderMatch_append h
  match m, hm with
  | c :: mt, _ =>
    have hl' : l = c :: (mt ++ rest) := by simpa using hl
    subst hl'
    rw [replacePlaceholdersGo, h]
    simp only [List.length_cons, Nat.add_sub_cancel]
    rw [replacePlaceholdersGo_skip]

theorem replacePlaceholdersGo_no_match {c : Char} {t : List Char} (viewModel : ViewModel)
    (h : placeholderMatch (c :: t) = none) :
    replacePlaceholdersGo viewModel (c :: t) 0 =
      c :: replacePlaceholdersGo viewModel t 0 := by
  rw [replacePlaceholdersGo, h]

example :
    replacePlaceholders "<h1><!-- title --></h1>".data
      (fun k => if k = "title".data then some (.str "Hello, World!".data) else none)
    = "<h1>Hello, World!</h1>".data := by decide

example :
    replacePlaceholders "<p><!-- conent --></p>".data
      (fun k => if k = "foo".data then some (.str "bar".data) else none)
    = "<p><!-- conent --></p>".data := by decide

/-! ## Shared token-tail matcher

All four comment-command regexes end in `;?\s*-->`; `?` and `*` are greedy,
and neither `;` nor a white-space character can begin `-->`, so matching is
deterministic. -/

/-- Character-inequality test used for the `[^,]` / `[^)]` classes. -/
def neChar (a : Char) : Char → Bool := fun c => !(c == a)

/-- Match `;?\s*-->` at the head; returns the matched text and the rest. -/
def tailMatch (t : List Char) : Option (List Char × List Char) :=
  match t with
  | ';' :: t5 =>
    let ws := t5.takeWhile isJsSpace
    let t6 := t5.dropWhile isJsSpace
    match t6 with
    | '-' :: '-' :: '>' :: rest => some (';' :: (ws ++ ['-', '-', '>']), rest)
    | _ => none
  | t4 =>
    let ws := t4.takeWhile isJsSpace
    let t6 := t4.dropWhile isJsSpace
    match t6 with
    | '-' :: '-' :: '>' :: rest => some (ws ++ ['-', '-', '>'], rest)
    | _ => none

theorem tailMatch_append {t m rest : List Char} (h : tailMatch t = some (m, rest)) :
    t = m ++ rest := by
  simp only [tailMatch] at h
  split at h
  next t5 =>
    split at h
    next rest' heq =>
      simp only [Option.some.injEq, Prod.mk.injEq] at h
      obtain ⟨rfl, rfl⟩ := h
      have ht : t5 = t5.takeWhile isJsSpace ++ t5.dropWhile isJsSpace :=
        (List.takeWhile_append_dropWhile _ _).symm
      rw [heq] at ht
      simp only [List.cons_append, List.append_assoc, List.cons.injEq, true_and]
      conv_lhs => rw [ht]
      simp [List.append_assoc]
    · exact absurd h (by simp)
  next t4 hne =>
    split at h
    next rest' heq =>
      simp only [Option.some.injEq, Prod.mk.injEq] at h
      obtain ⟨rfl, rfl⟩ := h
      have ht : t = t.takeWhile isJsSpace ++ t.dropWhile isJsSpace :=
        (List.takeWhile_append_dropWhile _ _).symm
      rw [heq] at ht
      conv_lhs => rw [ht]
      simp [List.append_assoc]
    · exact absurd h (by simp)

/-! ## Unconditional include matcher (`/<!--\s*include\(([^)]+)\);?\s*-->/g`) -/

/-- Match `<!--\s*include\(([^)]+)\);?\s*-->` at the head.  Returns the raw
captured file name, the exact matched text and the rest. -/
def includeMatch (l : List Char) : Option (List Char × List Char × List Char) :=
  match l with
  | '<' :: '!' :: '-' :: '-' :: t =>
    let ws1 := t.takeWhile isJsSpace
    let t1 := t.dropWhile isJsSpace
    if "include(".data.isPrefixOf t1 then
      let t2 := t1.drop 8
      let fn := t2.takeWhile (neChar ')')
      let t3 := t2.dropWhile (neChar ')')
      if fn.isEmpty then none
      else
        match t3 with
        | ')' :: t4 =>
          match tailMatch t4 with
          | some (mt, rest) =>
            some (fn, '<' :: '!' :: '-' :: '-' ::
              (ws1 ++ "include(".data ++ fn ++ ')' :: mt), rest)
          | none => none
        | _ => none
    else none
  | _ => none

theorem isPrefixOf_append_drop {pre l : List Char} (h : pre.isPrefixOf l) :
    l = pre ++ l.drop pre.length := by
  obtain ⟨s, hs⟩ := List.isPrefixOf_iff_prefix.mp h
  subst hs
  rw [List.drop_left]

theorem includeMatch_append {l fn m rest : List Char}
    (h : includeMatch l = some (fn, m, rest)) :
    l = m ++ rest ∧ m ≠ [] := by
  simp only [includeMatch] at h
  split at h
  next t =>
    split at h
    next hpre =>
      split at h
      · exact absurd h (by simp)
      · split at h
        next t4 heq3 =>
          split at h
          next mt rest' heq4 =>
            simp only [Option.some.injEq, Prod.mk.injEq] at h
            obtain ⟨rfl, rfl, rfl⟩ := h
            refine ⟨?_, by simp⟩
            have ht : t = t.takeWhile isJsSpace ++ t.dropWhile isJsSpace :=
              (List.takeWhile_append_dropWhile _ _).symm
            have h1 : t.dropWhile isJsSpace =
                "include(".data ++ (t.dropWhile isJsSpace).drop 8 :=
              isPrefixOf_append_drop hpre
            have h2 : (t.dropWhile isJsSpace).drop 8 =
                ((t.dropWhile isJsSpace).drop 8).takeWhile (neChar ')') ++
                  ((t.dropWhile isJsSpace).drop 8).dropWhile (neChar ')') :=
              (List.takeWhile_append_dropWhile _ _).symm
            rw [heq3] at h2
            rw [tailMatch_append heq4] at h2
            rw [h2] at h1
            rw [h1] at ht
            simp only [List.cons_append, List.append_assoc, List.cons.injEq, true_and]
            conv_lhs => rw [ht]
            simp [List.append_assoc]
          · exact absurd h (by simp)
        · exact absurd h (by simp)
    · exact absurd h (by simp)
  · exact absurd h (by simp)

/-! ## Conditional include matcher
(`/<!--\s*includeIf\(([^,]+),([^)]+)\);?\s*-->/g`) -/

/-- Match `<!--\s*includeIf\(([^,]+),([^)]+)\);?\s*-->` at the head.  Returns
the raw key capture, the raw file-name capture, the matched text and the
rest. -/
def includeIfMatch (l : List Char) :
    Option (List Char × List Char × List Char × List Char) :=
  match l with
  | '<' :: '!' :: '-' :: '-' :: t =>
    let ws1 := t.takeWhile isJsSpace
    let t1 := t.dropWhile isJsSpace
    if "includeIf(".data.isPrefixOf t1 then
      let t2 := t1.drop 10
      let key := t2.takeWhile (neChar ',')
      let t3 := t2.dropWhile (neChar ',')
      if key.isEmpty then none
      else
        match t3 with
        | ',' :: t4 =>
          let fn := t4.takeWhile (neChar ')')
          let t5 := t4.dropWhile (neChar ')')
          if fn.isEmpty then none
          else
            match t5 with
            | ')' :: t6 =>
              match tailMatch t6 with
              | some (mt, rest) =>
                some (key, fn, '<' :: '!' :: '-' :: '-' ::
                  (ws1 ++ "includeIf(".data ++ key ++ ',' :: fn ++ ')' :: mt), rest)
              | none => none
            | _ => none
        | _ => none
    else none
  | _ => none

theorem includeIfMatch_append {l key fn m rest : List Char}
    (h : includeIfMatch l = some (key, fn, m, rest)) :
    l = m ++ rest ∧ m ≠ [] := by
  simp only [includeIfMatch] at h
  split at h
  next t =>
    split at h
    next hpre =>
      split at h
      · exact absurd h (by simp)
      · split at h
        next t4 heq3 =>
          split at h
          · exact absurd h (by simp)
          · split at h
            next t6 heq5 =>
              split at h
              next mt rest' heq6 =>
                simp only [Option.some.injEq, Prod.mk.injEq] at h
                obtain ⟨rfl, rfl, rfl, rfl⟩ := h
                refine ⟨?_, by simp⟩
                have ht : t = t.takeWhile isJsSpace ++ t.dropWhile isJsSpace :=
                  (List.takeWhile_append_dropWhile _ _).symm
                have h1 : t.dropWhile isJsSpace =
                    "includeIf(".data ++ (t.dropWhile isJsSpace).drop 10 :=
                  isPrefixOf_append_drop hpre
                have h2 : (t.dropWhile isJsSpace).drop 10 =
                    ((t.dropWhile isJsSpace).drop 10).takeWhile (neChar ',') ++
                      ((t.dropWhile isJsSpace).drop 10).dropWhile (neChar ',') :=
                  (List.takeWhile_append_dropWhile _ _).symm
                have h3 : t4 = t4.takeWhile (neChar ')') ++ t4.dropWhile (neChar ')') :=
                  (List.takeWhile_append_dropWhile _ _).symm
                rw [heq5, tailMatch_append heq6] at h3
                rw [heq3, h3] at h2
                rw [h2] at h1
                rw [h1] at ht
                simp only [List.cons_append, List.append_assoc, List.cons.injEq, true_and]
                conv_lhs => rw [ht]
                simp [List.append_assoc]
              · exact absurd h (by simp)
            · exact absurd h (by simp)
        · exact absurd h (by simp)
    · exact absurd h (by simp)
  · exact absurd h (by simp)

/-! ## Conditional rendering
(`/<!--\s*renderIf\(([^)]+)\);?\s*-->([\s\S]*?)<!--\s*endIf\(\);?\s*-->/g`)

Note that the source's replacer looks the raw capture `match[1]` up in the
view model without trimming it. -/

/-- Match the opening token `<!--\s*renderIf\(([^)]+)\);?\s*-->` at the head.
Returns the raw key capture, the matched text and the rest. -/
def renderIfOpenMatch (l : List Char) :
    Option (List Char × List Char × List Char) :=
  match l with
  | '<' :: '!' :: '-' :: '-' :: t =>
    let ws1 := t.takeWhile isJsSpace
    let t1 := t.dropWhile isJsSpace
    if "renderIf(".data.isPrefixOf t1 then
      let t2 := t1.drop 9
      let key := t2.takeWhile (neChar ')')
      let t3 := t2.dropWhile (neChar ')')
      if key.isEmpty then none
      else
        match t3 with
        | ')' :: t4 =>
          match tailMatch t4 with
          | some (mt, rest) =>
            some (key, '<' :: '!' :: '-' :: '-' ::
              (ws1 ++ "renderIf(".data ++ key ++ ')' :: mt), rest)
          | none => none
        | _ => none
    else none
  | _ => none

theorem renderIfOpenMatch_append {l key m rest : List Char}
    (h : renderIfOpenMatch l = some (key, m, rest)) :
    l = m ++ rest ∧ m ≠ [] := by
  simp only [renderIfOpenMatch] at h
  split at h
  next t =>
    split at h
    next hpre =>
      split at h
      · exact absurd h (by simp)
      · split at h
        next t4 heq3 =>
          split at h
          next mt rest' heq4 =>
            simp only [Option.some.injEq, Prod.mk.injEq] at h
            obtain ⟨rfl, rfl, rfl⟩ := h
            refine ⟨?_, by simp⟩
            have ht : t = t.takeWhile isJsSpace ++ t.dropWhile isJsSpace :=
              (List.takeWhile_append_dropWhile _ _).symm
            have h1 : t.dropWhile isJsSpace =
                "renderIf(".data ++ (t.dropWhile isJsSpace).drop 9 :=
              isPrefixOf_append_drop hpre
            have h2 : (t.dropWhile isJsSpace).drop 9 =
                ((t.dropWhile isJsSpace).drop 9).takeWhile (neChar ')') ++
                  ((t.dropWhile isJsSpace).drop 9).dropWhile (neChar ')') :=
              (List.takeWhile_append_dropWhile _ _).symm
            rw [heq3] at h2
            rw [tailMatch_append heq4] at h2
            rw [h2] at h1
            rw [h1] at ht
            simp only [List.cons_append, List.append_assoc, List.cons.injEq, true_and]
            conv_lhs => rw [ht]
            simp [List.append_assoc]
          · exact absurd h (by simp)
        · exact absurd h (by simp)
    · exact absurd h (by simp)
  · exact absurd h (by simp)

/-- Match the closing token `<!--\s*endIf\(\);?\s*-->` at the head.  Returns
the matched text and the rest. -/
def endIfMatch (l : List Char) : Option (List Char × List Char) :=
  match l with
  | '<' :: '!' :: '-' :: '-' :: t =>
    let ws1 := t.takeWhile isJsSpace
    let t1 := t.dropWhile isJsSpace
    if "endIf()".data.isPrefixOf t1 then
      let t2 := t1.drop 7
      match tailMatch t2 with
      | some (mt, rest) =>
        some ('<' :: '!' :: '-' :: '-' :: (ws1 ++ "endIf()".data ++ mt), rest)
      | none => none
    else none
  | _ => none

theorem endIfMatch_append {l m rest : List Char}
    (h : endIfMatch l = some (m, rest)) :
    l = m ++ rest ∧ m ≠ [] := by
  simp only [endIfMatch] at h
  split at h
  next t =>
    split at h
    next hpre =>
      split at h
      next mt rest' heq2 =>
        simp only [Option.some.injEq, Prod.mk.injEq] at h
        obtain ⟨rfl, rfl⟩ := h
        refine ⟨?_, by simp⟩
        have ht : t = t.takeWhile isJsSpace ++ t.dropWhile isJsSpace :=
          (List.takeWhile_append_dropWhile _ _).symm
        have h1 : t.dropWhile isJsSpace =
            "endIf()".data ++ (t.dropWhile isJsSpace).drop 7 :=
          isPrefixOf_append_drop hpre
        rw [tailMatch_append heq2] at h1
        rw [h1] at ht
        simp only [List.cons_append, List.append_assoc, List.cons.injEq, true_and]
        conv_lhs => rw [ht]
        simp [List.append_assoc]
      · exact absurd h (by simp)
    · exact absurd h (by simp)
  · exact absurd h (by simp)

/-- Lazy search for the nearest following `endIf` token (`([\s\S]*?)` tries
the shortest content first).  Returns the span content, the matched closing
token and the rest. -/
def findEndIf : List Char → Option (List Char × List Char × List Char)
  | [] => none
  | c :: t =>
    match endIfMatch (c :: t) with
    | some (em, rest) => some ([], em, rest)
    | none =>
      match findEndIf t with
      | some (content, em, rest) => some (c :: content, em, rest)
      | none => none

theorem findEndIf_append {l content em rest : List Char}
    (h : findEndIf l = some (content, em, rest)) :
    l = content ++ em ++ rest ∧ em ≠ [] := by
  induction l generalizing content with
  | nil => exact absurd h (by simp [findEndIf])
  | cons c t ih =>
    rw [findEndIf] at h
    split at h
    next em' rest' heq =>
      simp only [Option.some.injEq, Prod.mk.injEq] at h
      obtain ⟨rfl, rfl, rfl⟩ := h
      obtain ⟨h1, h2⟩ := endIfMatch_append heq
      exact ⟨by simpa using h1, h2⟩
    next heq =>
      split at h
      next content' em' rest' heq2 =>
        simp only [Option.some.injEq, Prod.mk.injEq] at h
        obtain ⟨rfl, rfl, rfl⟩ := h
        obtain ⟨h1, h2⟩ := ih heq2
        exact ⟨by simp [h1], h2⟩
      · exact absurd h (by simp)

/-- Scan for `renderIf` spans (same skip discipline as
`replacePlaceholdersGo`). -/
def renderIfGo (viewModel : ViewModel) : List Char → Nat → List Char
  | [], _ => []
  | _ :: t, skip + 1 => renderIfGo viewModel t skip
  | c :: t, 0 =>
    match renderIfOpenMatch (c :: t) with
    | some (key, om, rest1) =>
      match findEndIf rest1 with
      | some (content, em, _rest) =>
        (if truthyOpt (viewModel key) then content else []) ++
          renderIfGo viewModel t (om.length + content.length + em.length - 1)
      | none => c :: renderIfGo viewModel t 0
    | none => c :: renderIfGo viewModel t 0

/-- The conditional-rendering pass (`renderIf`, template.ts:199-208). -/
def renderIf (html : List Char) (viewModel : ViewModel) : List Char :=
  renderIfGo viewModel html 0

theorem renderIfGo_skip (viewModel : ViewModel) (pre l : List Char) :
    renderIfGo viewModel (pre ++ l) pre.length = renderIfGo viewModel l 0 := by
  induction pre with
  | nil => rfl
  | cons c t ih => simpa [renderIfGo] using ih

theorem renderIfGo_match {l key om rest1 content em rest : List Char}
    (viewModel : ViewModel)
    (h1 : renderIfOpenMatch l = some (key, om, rest1))
    (h2 : findEndIf rest1 = some (content, em, rest)) :
    renderIfGo viewModel l 0 =
      (if truthyOpt (viewModel key) then content else []) ++
        renderIfGo viewModel rest 0 := by
  obtain ⟨hl, hom⟩ := renderIfOpenMatch_append h1
  obtain ⟨hr, hem⟩ := findEndIf_append h2
  match om, hom with
  | c :: omt, _ =>
    have hl' : l = c :: (omt ++ (content ++ em ++ rest)) := by
      rw [hl, hr]; simp
    subst hl'
    rw [renderIfGo, h1]
    simp only [h2]
    have hlen : (c :: omt).length + content.length + em.length - 1 =
        (omt ++ content ++ em).length := by simp; omega
    rw [hlen]
    have hres : omt ++ (content ++ em ++ rest) = (omt ++ content ++ em) ++ rest := by
      simp [List.append_assoc]
    rw [hres, renderIfGo_skip]

theorem renderIfGo_no_match {c : Char} {t : List Char} (viewModel : ViewModel)
    (h : ∀ key om rest1, renderIfOpenMatch (c :: t) = some (key, om, rest1) →
      findEndIf rest1 = none) :
    renderIfGo viewModel (c :: t) 0 = c :: renderIfGo viewModel t 0 := by
  rw [renderIfGo]
  cases h1 : renderIfOpenMatch (c :: t) with
  | some x =>
    obtain ⟨key, om, rest1⟩ := x
    simp only [h key om rest1 h1]
  | none => rfl

example :
    renderIf "<div><!-- renderIf(show); -->Hello, World!<!-- endIf(); --></div>".data
      (fun k => if k = "show".data then some (.bool true) else none)
    = "<div>Hello, World!</div>".data := by decide

example :
    renderIf "<div><!-- renderIf(show); -->Hello, World!<!-- endIf(); --></div>".data
      (fun k => if k = "show".data then some (.bool false) else none)
    = "<div></div>".data := by decide

/-! ## String replacement helpers

`String.prototype.replaceAll(pattern, content)` and
`String.prototype.replace(pattern, content)` with string arguments: the
first replaces every non-overlapping occurrence left to right, the second
only the first occurrence.  The `$`-substitution patterns JavaScript applies
inside a string replacement argument are not modelled; the replacement text
is inserted literally. -/

def replaceAllGo (pat content : List Char) : List Char → Nat → List Char
  | [], _ => []
  | _ :: t, skip + 1 => replaceAllGo pat content t skip
  | c :: t, 0 =>
    if pat.isPrefixOf (c :: t) && !pat.isEmpty then
      content ++ replaceAllGo pat content t (pat.length - 1)
    else c :: replaceAllGo pat content t 0

/-- `target.replaceAll(pat, content)`.  The engine only calls this with a
non-empty `pat` (a matched token), so the empty-pattern case is irrelevant
and maps the target to itself. -/
def replaceAllL (pat content target : List Char) : List Char :=
  replaceAllGo pat content target 0

/-- `target.replace(pat, content)` with a string pattern: first occurrence
only. -/
def replaceFirstL (pat content : List Char) : List Char → List Char
  | [] => []
  | c :: t =>
    if pat.isPrefixOf (c :: t) && !pat.isEmpty then
      content ++ (c :: t).drop pat.length
    else c :: replaceFirstL pat content t

example : replaceAllL "ab".data "X".data "zababy".data = "zXXy".data := by decide

example : replaceFirstL "ab".data "X".data "zababy".data = "zXaby".data := by decide

/-! ## The minifier (`minifyHtml`, template.ts:220-228)

Three chained regex replaces and a trim:
`html.replace(/^\s+/gm, "").replace(/[\r\n]+/g, "\n").trim()` followed by
`html.replace(/<!--[\s\S]*?-->/g, "")`. -/

/-- Scan for `/^\s+/gm` matches and delete them.  The flag is true exactly
when the current position is a line start (position 0 or right after a line
terminator), which is where the multiline `^` anchors.  After deleting a
maximal white-space run the next position is a line start exactly when the
last deleted character was a line terminator. -/
def stripLineLeadGo : List Char → Nat → Bool → List Char
  | [], _, _ => []
  | _ :: t, skip + 1, b => stripLineLeadGo t skip b
  | c :: t, 0, b =>
    if b && isJsSpace c then
      let run := (c :: t).takeWhile isJsSpace
      stripLineLeadGo t (run.length - 1) (isLineTerm (run.getLastD ' '))
    else c :: stripLineLeadGo t 0 (isLineTerm c)

/-- `html.replace(/^\s+/gm, "")`. -/
def stripLineLead (l : List Char) : List Char :=
  stripLineLeadGo l 0 true

/-- Scan for `/[\r\n]+/g` matches and replace each with a single `\n`. -/
def collapseNewlinesGo : List Char → Nat → List Char
  | [], _ => []
  | _ :: t, skip + 1 => collapseNewlinesGo t skip
  | c :: t, 0 =>
    if isCrLf c then
      let run := (c :: t).takeWhile isCrLf
      '\n' :: collapseNewlinesGo t (run.length - 1)
    else c :: collapseNewlinesGo t 0

/-- `html.replace(/[\r\n]+/g, "\n")`. -/
def collapseNewlines (l : List Char) : List Char :=
  collapseNewlinesGo l 0

/-- Lazy search for the closing `-->` of a comment: the earliest position
where `-->` occurs.  Returns the consumed text (through the `-->`) and the
rest. -/
def findCommentEnd : List Char → Option (List Char × List Char)
  | [] => none
  | c :: t =>
    if "-->".data.isPrefixOf (c :: t) then some (['-', '-', '>'], (c :: t).drop 3)
    else
      match findCommentEnd t with
      | some (m, rest) => some (c :: m, rest)
      | none => none

/-- Match one `<!--[\s\S]*?-->` comment span at the head. -/
def commentMatch (l : List Char) : Option (List Char × List Char) :=
  match l with
  | '<' :: '!' :: '-' :: '-' :: t =>
    match findCommentEnd t with
    | some (inner, rest) => some ('<' :: '!' :: '-' :: '-' :: inner, rest)
    | none => none
  | _ => none

/-- Scan for comment spans and delete them
(`html.replace(/<!--[\s\S]*?-->/g, "")`). -/
def removeCommentsGo : List Char → Nat → List Char
  | [], _ => []
  | _ :: t, skip + 1 => removeCommentsGo t skip
  | c :: t, 0 =>
    match commentMatch (c :: t) with
    | some (m, _rest) => removeCommentsGo t (m.length - 1)
    | none => c :: removeCommentsGo t 0

/-- `html.replace(/<!--[\s\S]*?-->/g, "")`. -/
def removeComments (l : List Char) : List Char :=
  removeCommentsGo l 0

/-- The minifier (`minifyHtml`, template.ts:220-228): strip line-leading
white space, collapse line-break runs, trim, then delete every remaining
comment span. -/
def minifyHtml (l : List Char) : List Char :=
  removeComments (jsTrim (collapseNewlines (stripLineLead l)))

example :
    minifyHtml "   <div><span>Hello, World!</span></div>  ".data
    = "<div><span>Hello, World!</span></div>".data := by decide

example : minifyHtml "<div><!-- comment --></div>".data = "<div></div>".data := by
  decide

example : minifyHtml "<div><!--\ncomment\n--></div>".data = "<div></div>".data := by
  decide

/-! ## The include passes

Both passes report through `logError` and call the injected reader; the
embedding returns those effects as data next to the rewritten document. -/

/-- Result of an effectful pass: the rewritten document, the `logError`
calls in order, and the paths passed to the file reader in order. -/
structure PassResult : Type where
  doc : List Char
  logs : List LogEntry
  reads : List (List Char)
deriving DecidableEq

/-- The collection loop of `includeFiles` (template.ts:109-123): the
`while exec` loop over the unmodified document, resolving every match in
scan order into a replacement pair, a failure log and a read trace. -/
def includeLoopGo (reader : Reader) (baseDir : List Char) :
    List Char → Nat → List (List Char × List Char) × List LogEntry × List (List Char)
  | [], _ => ([], [], [])
  | _ :: t, skip + 1 => includeLoopGo reader baseDir t skip
  | c :: t, 0 =>
    match includeMatch (c :: t) with
    | some (fnRaw, m, _rest) =>
      let fn := jsTrim fnRaw
      let path := joinPath baseDir fn
      let res := includeLoopGo reader baseDir t (m.length - 1)
      match reader path with
      | some content => ((m, content) :: res.1, res.2.1, path :: res.2.2)
      | none => ((m, []) :: res.1, ⟨fn, .inc⟩ :: res.2.1, path :: res.2.2)
    | none => includeLoopGo reader baseDir t 0

/-- The unconditional include pass (`includeFiles`, template.ts:102-130):
collect and resolve all matches first, then for each collected match
`html = html.replaceAll(match, content)`. -/
def includeFiles (reader : Reader) (html baseDir : List Char) : PassResult :=
  let r := includeLoopGo reader baseDir html 0
  ⟨r.1.foldl (fun h mc => replaceAllL mc.1 mc.2 h) html, r.2.1, r.2.2⟩

example :
    (includeFiles (fun p => some (("Hello, ".data ++ p) ++ "!".data))
      "<div><!-- include(file.txt); --></div>".data ".".data).doc
    = "<div>Hello, file.txt!</div>".data := by decide

example :
    (includeFiles (fun _ => none)
      "<div><!-- include(missing.txt); --></div>".data ".".data)
    = ⟨"<div></div>".data, [⟨"missing.txt".data, .inc⟩], ["missing.txt".data]⟩ := by
  decide

/-- Find the leftmost `includeIf` match at or after the given position
(`exec` on a regex whose `lastIndex` was set to that position).  Returns the
match index with the raw key, raw file name and matched text. -/
def findIncludeIf : List Char → Nat → Option (Nat × List Char × List Char × List Char)
  | [], _ => none
  | c :: t, pos =>
    match includeIfMatch (c :: t) with
    | some (key, fn, m, _rest) => some (pos, key, fn, m)
    | none => findIncludeIf t (pos + 1)

/-- The `while exec` loop of `includeFilesIf` (template.ts:155-173).  The
document is mutated inside the loop (`html = html.replace(match[0], ...)`,
which replaces the first occurrence of the matched text), while the regex
object keeps its `lastIndex = match.index + match[0].length` measured
against the pre-replacement text.  Because the live document can keep
growing through replacements that contain further tokens, the loop need not
terminate for an adversarial reader; `fuel` bounds the number of processed
matches, and every claim below is either independent of `fuel` or
quantified over it. -/
def includeFilesIfGo (reader : Reader) (baseDir : List Char) (viewModel : ViewModel) :
    Nat → List Char → Nat → PassResult
  | 0, html, _ => ⟨html, [], []⟩
  | fuel + 1, html, idx =>
    match findIncludeIf (html.drop idx) idx with
    | none => ⟨html, [], []⟩
    | some (i, keyRaw, fnRaw, m) =>
      let key := jsTrim keyRaw
      let fn := jsTrim fnRaw
      if truthyOpt (viewModel key) then
        let path := joinPath baseDir fn
        match reader path with
        | some content =>
          let r := includeFilesIfGo reader baseDir viewModel fuel
            (replaceFirstL m content html) (i + m.length)
          ⟨r.doc, r.logs, path :: r.reads⟩
        | none =>
          let r := includeFilesIfGo reader baseDir viewModel fuel
            (replaceFirstL m [] html) (i + m.length)
          ⟨r.doc, ⟨fn, .incIf⟩ :: r.logs, path :: r.reads⟩
      else
        includeFilesIfGo reader baseDir viewModel fuel
          (replaceFirstL m [] html) (i + m.length)

/-- The conditional include pass (`includeFilesIf`, template.ts:148-175). -/
def includeFilesIf (reader : Reader) (html baseDir : List Char)
    (viewModel : ViewModel) (fuel : Nat) : PassResult :=
  includeFilesIfGo reader baseDir viewModel fuel html 0

example :
    (includeFilesIf (fun p => some (("Hello, ".data ++ p) ++ "!".data))
      "<div><!-- includeIf(isInclude, filename.txt); --></div>".data ".".data
      (fun k => if k = "isInclude".data then some (.bool true) else none) 9).doc
    = "<div>Hello, filename.txt!</div>".data := by decide

example :
    (includeFilesIf (fun _ => none)
      "<div><!-- includeIf(isInclude, filename.txt); --></div>".data ".".data
      (fun k => if k = "isInclude".data then some (.bool false) else none) 9)
    = ⟨"<div></div>".data, [], []⟩ := by decide

example :
    (includeFilesIf (fun _ => none)
      "<div><!-- includeIf(isInclude, missing.txt); --></div>".data ".".data
      (fun k => if k = "isInclude".data then some (.bool true) else none) 9)
    = ⟨"<div></div>".data, [⟨"missing.txt".data, .incIf⟩], ["missing.txt".data]⟩ := by
  decide

/-! ## The orchestrator (`renderTemplate`, template.ts:49-64) -/

/-- The full render: the source's sequence of reassignments
`renderIf; replacePlaceholders; includeFilesIf; includeFiles; renderIf;
replacePlaceholders; minifyHtml`, with the two include passes' log output
returned in chronological order. -/
def renderTemplate (reader : Reader) (html : List Char) (viewModel : ViewModel)
    (baseDir : List Char) (fuel : Nat) : List Char × List LogEntry :=
  let h1 := renderIf html viewModel
  let h2 := replacePlaceholders h1 viewModel
  let r3 := includeFilesIf reader h2 baseDir viewModel fuel
  let r4 := includeFiles reader r3.doc baseDir
  let h5 := renderIf r4.doc viewModel
  let h6 := replacePlaceholders h5 viewModel
  (minifyHtml h6, r3.logs ++ r4.logs)

example :
    (renderTemplate (fun _ => some "Hello, World!".data)
      ("<h1><!-- title --></h1><!-- include(hello-world.txt); -->" ++
        "<!-- includeIf(hello, hello-world.txt); --><!-- renderIf(section); -->" ++
        "  <h2>Section</h2><!-- endIf(); -->").data
      (fun k =>
        if k = "title".data then some (.str "Hello, World!".data)
        else if k = "hello".data then some (.bool true)
        else if k = "section".data then some (.bool true)
        else none)
      ".".data 9).1
    = "<h1>Hello, World!</h1>Hello, World!Hello, World!  <h2>Section</h2>".data := by
  decide

/-! ## Spec-side pipeline (for the refinement claim) -/

/-- Modelled from the spec (§4.6): the fixed pipeline order
renderIf → substitute-placeholders → includeIf → include → renderIf →
substitute-placeholders → minify, written as a plain composition in which
every pass receives the previous pass's output together with the same view
model and base directory; the two include stages contribute their log
output in pipeline order. -/
def specPipeline (reader : Reader) (html : List Char) (viewModel : ViewModel)
    (baseDir : List Char) (fuel : Nat) : List Char × List LogEntry :=
  (minifyHtml
    (replacePlaceholders
      (renderIf
        (includeFiles reader
          (includeFilesIf reader
            (replacePlaceholders (renderIf html viewModel) viewModel)
            baseDir viewModel fuel).doc
          baseDir).doc
        viewModel)
      viewModel),
   (includeFilesIf reader
      (replacePlaceholders (renderIf html viewModel) viewModel)
      baseDir viewModel fuel).logs ++
     (includeFiles reader
        (includeFilesIf reader
          (replacePlaceholders (renderIf html viewModel) viewModel)
          baseDir viewModel fuel).doc
        baseDir).logs)

/-- C1: for every document, view model, base directory (and fuel bound on
the conditional-include loop), `renderTemplate` returns exactly the fixed
composition renderIf → replacePlaceholders → includeFilesIf → includeFiles →
renderIf → replacePlaceholders → minifyHtml, each pass applied to the
previous pass's output with the same view model and base directory. -/
theorem renderTemplate_fixed_pipeline (reader : Reader) (html : List Char)
    (viewModel : ViewModel) (baseDir : List Char) (fuel : Nat) :
    renderTemplate reader html viewModel baseDir fuel =
      specPipeline reader html viewModel baseDir fuel := rfl

/-! ## Collect-then-replace structure of `includeFiles` -/

/-- Pure collection of all `include` matches in scan order: the matched
token text together with the trimmed path capture. -/
def collectIncludesGo : List Char → Nat → List (List Char × List Char)
  | [], _ => []
  | _ :: t, skip + 1 => collectIncludesGo t skip
  | c :: t, 0 =>
    match includeMatch (c :: t) with
    | some (fnRaw, m, _rest) => (m, jsTrim fnRaw) :: collectIncludesGo t (m.length - 1)
    | none => collectIncludesGo t 0

/-- All `include(path)` matches of a document, in scan order. -/
def collectIncludes (l : List Char) : List (List Char × List Char) :=
  collectIncludesGo l 0

/-- Modelled from the spec (§4.3): collect all matches first (token text and
requested path); then resolve each path against the base directory through
the file reader, recording the file's content or, on failure, empty content
plus one logged failure; finally replace every occurrence of each matched
token text with its resolved content, in match order. -/
def specIncludeFiles (reader : Reader) (html baseDir : List Char) : PassResult :=
  let ms := collectIncludes html
  let resolved := ms.map (fun tf => (tf.1, (reader (joinPath baseDir tf.2)).getD []))
  ⟨resolved.foldl (fun h mc => replaceAllL mc.1 mc.2 h) html,
   ms.filterMap (fun tf =>
     match reader (joinPath baseDir tf.2) with
     | some _ => none
     | none => some ⟨tf.2, .inc⟩),
   ms.map (fun tf => joinPath baseDir tf.2)⟩

theorem includeLoopGo_eq_collect (reader : Reader) (baseDir : List Char) :
    ∀ (l : List Char) (skip : Nat),
      includeLoopGo reader baseDir l skip =
        ((collectIncludesGo l skip).map
            (fun tf => (tf.1, (reader (joinPath baseDir tf.2)).getD [])),
         (collectIncludesGo l skip).filterMap (fun tf =>
           match reader (joinPath baseDir tf.2) with
           | some _ => none
           | none => some ⟨tf.2, .inc⟩),
         (collectIncludesGo l skip).map (fun tf => joinPath baseDir tf.2)) := by
  intro l
  induction l with
  | nil => intro skip; cases skip <;> rfl
  | cons c t ih =>
    intro skip
    cases skip with
    | succ n => simpa [includeLoopGo, collectIncludesGo] using ih n
    | zero =>
      rw [includeLoopGo, collectIncludesGo]
      cases hm : includeMatch (c :: t) with
      | none => simpa using ih 0
      | some x =>
        obtain ⟨fnRaw, m, rest⟩ := x
        cases hr : reader (joinPath baseDir (jsTrim fnRaw)) <;>
          simp [ih (m.length - 1), hr]

/-- C4: `includeFiles` first collects all `include(path)` matches, then
resolves each path against the base directory through the file reader
(exact content when readable, empty content plus one logged failure when
not), and finally replaces every occurrence of each matched token text with
its resolved content, in match order — so a token string that appears
several times is rewritten everywhere by the `replaceAll` of its first
match. -/
theorem includeFiles_collect_resolve_replace (reader : Reader)
    (html baseDir : List Char) :
    includeFiles reader html baseDir = specIncludeFiles reader html baseDir := by
  unfold includeFiles specIncludeFiles
  rw [includeLoopGo_eq_collect]
  rfl

/-! ## Local recovery of read failures -/

/-- The totalized variant of a reader: every failed read is recovered as
empty content. -/
def totalReader (reader : Reader) : Reader :=
  fun p => some ((reader p).getD [])

theorem includeFilesIfGo_doc_totalReader (reader : Reader) (baseDir : List Char)
    (viewModel : ViewModel) :
    ∀ (fuel : Nat) (html : List Char) (idx : Nat),
      (includeFilesIfGo reader baseDir viewModel fuel html idx).doc =
        (includeFilesIfGo (totalReader reader) baseDir viewModel fuel html idx).doc := by
  intro fuel
  induction fuel with
  | zero => intro html idx; rfl
  | succ n ih =>
    intro html idx
    rw [includeFilesIfGo, includeFilesIfGo]
    cases hf : findIncludeIf (html.drop idx) idx with
    | none => rfl
    | some x =>
      obtain ⟨i, keyRaw, fnRaw, m⟩ := x
      by_cases ht : truthyOpt (viewModel (jsTrim keyRaw)) = true
      · simp only [ht, if_true]
        cases hr : reader (joinPath baseDir (jsTrim fnRaw)) with
        | some content => simp [totalReader, hr, ih]
        | none => simp [totalReader, hr, ih]
      · simp only [Bool.not_eq_true] at ht
        simp [ht, ih]

theorem includeFilesIfGo_logs_failed (reader : Reader) (baseDir : List Char)
    (viewModel : ViewModel) :
    ∀ (fuel : Nat) (html : List Char) (idx : Nat),
      ∀ e ∈ (includeFilesIfGo reader baseDir viewModel fuel html idx).logs,
        e.tag = .incIf ∧ reader (joinPath baseDir e.file) = none := by
  intro fuel
  induction fuel with
  | zero => intro html idx e he; exact absurd he (by simp [includeFilesIfGo])
  | succ n ih =>
    intro html idx e he
    rw [includeFilesIfGo] at he
    cases hf : findIncludeIf (html.drop idx) idx with
    | none => rw [hf] at he; exact absurd he (by simp)
    | some x =>
      obtain ⟨i, keyRaw, fnRaw, m⟩ := x
      rw [hf] at he
      by_cases ht : truthyOpt (viewModel (jsTrim keyRaw)) = true
      · simp only [ht, if_true] at he
        cases hr : reader (joinPath baseDir (jsTrim fnRaw)) with
        | some content =>
          rw [hr] at he
          exact ih _ _ e he
        | none =>
          rw [hr] at he
          simp only [List.mem_cons] at he
          rcases he with rfl | he
          · exact ⟨rfl, hr⟩
          · exact ih _ _ e he
      · simp only [Bool.not_eq_true] at ht
        simp only [ht, Bool.false_eq_true, if_false] at he
        exact ih _ _ e he

/-- C5: a file read failure in either includer pass is recovered locally.
The rewritten document is exactly the one produced by an infallible reader
that substitutes empty content for every failing read (so the failing token
is replaced with empty content and nothing escapes the render), and every
`logError` call of each pass carries the offending path and that pass's
operation tag for a read that genuinely failed. -/
theorem include_read_failure_recovered (reader : Reader) (html baseDir : List Char)
    (viewModel : ViewModel) (fuel : Nat) :
    ((includeFiles reader html baseDir).doc =
        (includeFiles (totalReader reader) html baseDir).doc ∧
      ∀ e ∈ (includeFiles reader html baseDir).logs,
        e.tag = .inc ∧ reader (joinPath baseDir e.file) = none) ∧
    ((includeFilesIf reader html baseDir viewModel fuel).doc =
        (includeFilesIf (totalReader reader) html baseDir viewModel fuel).doc ∧
      ∀ e ∈ (includeFilesIf reader html baseDir viewModel fuel).logs,
        e.tag = .incIf ∧ reader (joinPath baseDir e.file) = none) := by
  refine ⟨⟨?_, ?_⟩, includeFilesIfGo_doc_totalReader reader baseDir viewModel fuel html 0,
    includeFilesIfGo_logs_failed reader baseDir viewModel fuel html 0⟩
  · unfold includeFiles
    rw [includeLoopGo_eq_collect, includeLoopGo_eq_collect]
    simp [totalReader]
  · intro e he
    unfold includeFiles at he
    rw [includeLoopGo_eq_collect] at he
    simp only [List.mem_filterMap] at he
    obtain ⟨tf, -, htf⟩ := he
    cases hr : reader (joinPath baseDir tf.2) with
    | some content => rw [hr] at htf; exact absurd htf (by simp)
    | none =>
      rw [hr] at htf
      simp only [Option.some.injEq] at htf
      subst htf
      exact ⟨rfl, hr⟩

/-- Closed witness for the recovery theorem at a concrete failing read. -/
theorem include_read_failure_recovered_witness :
    (⟨"missing.txt".data, .inc⟩ : LogEntry) ∈
        (includeFiles (fun _ => none)
          "<div><!-- include(missing.txt); --></div>".data ".".data).logs ∧
      (⟨"missing.txt".data, .inc⟩ : LogEntry).tag = .inc ∧
      (fun _ => none : Reader)
          (joinPath ".".data (⟨"missing.txt".data, .inc⟩ : LogEntry).file) = none :=
  ⟨by decide,
    (include_read_failure_recovered (fun _ => none)
      "<div><!-- include(missing.txt); --></div>".data ".".data (fun _ => none) 9).1.2
      ⟨"missing.txt".data, .inc⟩ (by decide)⟩

/-! ## Token-free documents: matcher emptiness predicates -/

/-- Does any position of the document start a placeholder match? -/
def hasPlaceholder : List Char → Bool
  | [] => false
  | c :: t => (placeholderMatch (c :: t)).isSome || hasPlaceholder t

/-- Does any position start an `include` match? -/
def hasInclude : List Char → Bool
  | [] => false
  | c :: t => (includeMatch (c :: t)).isSome || hasInclude t

/-- Does any position start an `includeIf` match? -/
def hasIncludeIf : List Char → Bool
  | [] => false
  | c :: t => (includeIfMatch (c :: t)).isSome || hasIncludeIf t

/-- Does any position start a complete `renderIf ... endIf` span? -/
def hasRenderIf : List Char → Bool
  | [] => false
  | c :: t =>
    (match renderIfOpenMatch (c :: t) with
     | some (_, _, rest1) => (findEndIf rest1).isSome
     | none => false) || hasRenderIf t

theorem replacePlaceholders_id_of_no_match {l : List Char}
    (h : hasPlaceholder l = false) (viewModel : ViewModel) :
    replacePlaceholders l viewModel = l := by
  unfold replacePlaceholders
  induction l with
  | nil => rfl
  | cons c t ih =>
    rw [hasPlaceholder, Bool.or_eq_false_iff] at h
    rw [replacePlaceholdersGo]
    cases hm : placeholderMatch (c :: t) with
    | some x => rw [hm] at h; exact absurd h.1 (by simp)
    | none => rw [ih h.2]

theorem renderIf_id_of_no_match {l : List Char}
    (h : hasRenderIf l = false) (viewModel : ViewModel) :
    renderIf l viewModel = l := by
  unfold renderIf
  induction l with
  | nil => rfl
  | cons c t ih =>
    rw [hasRenderIf, Bool.or_eq_false_iff] at h
    rw [renderIfGo]
    cases hm : renderIfOpenMatch (c :: t) with
    | some x =>
      obtain ⟨key, om, rest1⟩ := x
      rw [hm] at h
      simp only at h
      cases hf : findEndIf rest1 with
      | some y => rw [hf] at h; exact absurd h.1 (by simp)
      | none => simp only [hf]; rw [ih h.2]
    | none => rw [ih h.2]

theorem collectIncludesGo_nil_of_no_match {l : List Char}
    (h : hasInclude l = false) : collectIncludesGo l 0 = [] := by
  induction l with
  | nil => rfl
  | cons c t ih =>
    rw [hasInclude, Bool.or_eq_false_iff] at h
    rw [collectIncludesGo]
    cases hm : includeMatch (c :: t) with
    | some x => rw [hm] at h; exact absurd h.1 (by simp)
    | none => exact ih h.2

theorem includeFiles_id_of_no_match {l : List Char}
    (h : hasInclude l = false) (reader : Reader) (baseDir : List Char) :
    includeFiles reader l baseDir = ⟨l, [], []⟩ := by
  unfold includeFiles
  rw [includeLoopGo_eq_collect, collectIncludesGo_nil_of_no_match h]
  rfl

theorem findIncludeIf_none_of_no_match {l : List Char}
    (h : hasIncludeIf l = false) : ∀ pos, findIncludeIf l pos = none := by
  induction l with
  | nil => intro pos; rfl
  | cons c t ih =>
    intro pos
    rw [hasIncludeIf, Bool.or_eq_false_iff] at h
    rw [findIncludeIf]
    cases hm : includeIfMatch (c :: t) with
    | some x => rw [hm] at h; exact absurd h.1 (by simp)
    | none => exact ih h.2 (pos + 1)

theorem includeFilesIf_id_of_no_match {l : List Char}
    (h : hasIncludeIf l = false) (reader : Reader) (baseDir : List Char)
    (viewModel : ViewModel) (fuel : Nat) :
    includeFilesIf reader l baseDir viewModel fuel = ⟨l, [], []⟩ := by
  unfold includeFilesIf
  cases fuel with
  | zero => rfl
  | succ n =>
    rw [includeFilesIfGo, List.drop_zero,
      findIncludeIf_none_of_no_match h 0]

/-! ## Minified form

`minifyHtml` is the identity exactly on documents already in minified form.
`aFix` states that no white-space run sits at a line start (the `/^\s+/gm`
scan finds nothing), which also rules out consecutive line terminators;
`jsTrimmed` states that `trim()` has nothing to remove; `containsQuad`
detects the `<!--` needed by any comment match. -/

/-- No `/^\s+/m` match anywhere, given whether the scan starts at a line
start: every character at a line-start position is non-white. -/
def aFix : Bool → List Char → Bool
  | _, [] => true
  | b, c :: t => !(b && isJsSpace c) && aFix (isLineTerm c) t

/-- Is the document invariant under `trim()` (no leading or trailing
white space)? -/
def jsTrimmed (l : List Char) : Bool :=
  (match l.head? with
   | some c => !isJsSpace c
   | none => true) &&
  (match l.getLast? with
   | some c => !isJsSpace c
   | none => true)

/-- Does the document contain the substring `<!--` anywhere? -/
def containsQuad : List Char → Bool
  | [] => false
  | c :: t => "<!--".data.isPrefixOf (c :: t) || containsQuad t

theorem char_eq_of_toNat {c d : Char} (h : c.toNat = d.toNat) : c = d := by
  apply Char.ext
  apply UInt32.ext
  exact h

theorem isJsSpace_of_isCrLf {c : Char} (h : isCrLf c = true) :
    isJsSpace c = true := by
  simp only [isCrLf, Bool.or_eq_true, decide_eq_true_eq] at h
  simp only [isJsSpace, Bool.or_eq_true, Bool.and_eq_true, decide_eq_true_eq]
  omega

theorem stripLineLeadGo_id {l : List Char} :
    ∀ {b : Bool}, aFix b l = true → stripLineLeadGo l 0 b = l := by
  induction l with
  | nil => intro b _; rfl
  | cons c t ih =>
    intro b h
    rw [aFix, Bool.and_eq_true] at h
    obtain ⟨h1, h2⟩ := h
    rw [stripLineLeadGo]
    rw [Bool.not_eq_true'] at h1
    rw [h1, if_neg (by simp)]
    rw [ih h2]

theorem collapseNewlinesGo_id {l : List Char} :
    ∀ {b : Bool}, aFix b l = true → l.all (neChar '\r') = true →
      collapseNewlinesGo l 0 = l := by
  induction l with
  | nil => intro b _ _; rfl
  | cons c t ih =>
    intro b h hr
    rw [aFix, Bool.and_eq_true] at h
    obtain ⟨h1, h2⟩ := h
    rw [List.all_cons, Bool.and_eq_true] at hr
    obtain ⟨hr1, hr2⟩ := hr
    rw [collapseNewlinesGo]
    by_cases hc : isCrLf c = true
    · have hcn : c = '\n' := by
        simp only [neChar, Bool.not_eq_true', beq_eq_false_iff_ne, ne_eq] at hr1
        simp only [isCrLf, Bool.or_eq_true, decide_eq_true_eq] at hc
        rcases hc with hc | hc
        · exact absurd (char_eq_of_toNat (show c.toNat = '\r'.toNat from hc)) hr1
        · exact char_eq_of_toNat (show c.toNat = '\n'.toNat from hc)
      subst hcn
      have hterm : isLineTerm '\n' = true := by decide
      rw [hterm] at h2
      have hrun : (('\n' : Char) :: t).takeWhile isCrLf = ['\n'] := by
        cases t with
        | nil => rfl
        | cons d t' =>
          rw [aFix, Bool.and_eq_true] at h2
          have hd : isJsSpace d = false := by
            have := h2.1
            simpa using this
          have hdc : isCrLf d = false := by
            cases hdc : isCrLf d
            · rfl
            · exact absurd (isJsSpace_of_isCrLf hdc) (by simp [hd])
          rw [List.takeWhile_cons_of_pos (by decide), List.takeWhile_cons_of_neg (by simp [hdc])]
      rw [if_pos (by decide)]
      rw [hrun]
      simp only [List.length_cons, List.length_nil, Nat.zero_add, Nat.sub_self]
      rw [ih h2 hr2]
    · rw [if_neg hc]
      rw [ih h2 hr2]

theorem jsTrim_id {l : List Char} (h : jsTrimmed l = true) : jsTrim l = l := by
  rw [jsTrimmed, Bool.and_eq_true] at h
  obtain ⟨h1, h2⟩ := h
  unfold jsTrim
  have hd : l.dropWhile isJsSpace = l := by
    cases l with
    | nil => rfl
    | cons c t =>
      simp only [List.head?_cons, Bool.not_eq_true'] at h1
      rw [List.dropWhile_cons_of_neg (by simp [h1])]
  rw [hd]
  cases hrev : l.reverse with
  | nil =>
    have : l = [] := by simpa using congrArg List.reverse hrev
    subst this; rfl
  | cons c t =>
    have hgl : l.getLast? = some c := by
      rw [← List.head?_reverse, hrev, List.head?_cons]
    rw [hgl] at h2
    simp only [Bool.not_eq_true'] at h2
    rw [List.dropWhile_cons_of_neg (by simp [h2]), ← hrev, List.reverse_reverse]

theorem commentMatch_none_of_no_quad {l : List Char}
    (h : "<!--".data.isPrefixOf l = false) : commentMatch l = none := by
  unfold commentMatch
  split
  next t => exact absurd h (by simp [List.isPrefixOf])
  · rfl

theorem removeCommentsGo_id {l : List Char} (h : containsQuad l = false) :
    removeCommentsGo l 0 = l := by
  induction l with
  | nil => rfl
  | cons c t ih =>
    rw [containsQuad, Bool.or_eq_false_iff] at h
    rw [removeCommentsGo, commentMatch_none_of_no_quad h.1, ih h.2]

theorem minifyHtml_id_of_minified {l : List Char} (h1 : aFix true l = true)
    (h2 : l.all (neChar '\r') = true) (h3 : jsTrimmed l = true)
    (h4 : containsQuad l = false) : minifyHtml l = l := by
  unfold minifyHtml stripLineLead collapseNewlines removeComments
  rw [stripLineLeadGo_id h1, collapseNewlinesGo_id h1 h2, jsTrim_id h3,
    removeCommentsGo_id h4]

/-- C9: each pass is the identity on a document in which it matches nothing
(for the minifier this means a document already in minified form: no
line-start white space, no carriage return, trimmed, and no `<!--`), and
every pass maps the empty document to itself. -/
theorem passes_identity_on_token_free (reader : Reader) (viewModel : ViewModel)
    (baseDir : List Char) (fuel : Nat) (l : List Char) :
    (hasPlaceholder l = false → replacePlaceholders l viewModel = l) ∧
    (hasRenderIf l = false → renderIf l viewModel = l) ∧
    (hasInclude l = false → includeFiles reader l baseDir = ⟨l, [], []⟩) ∧
    (hasIncludeIf l = false →
      includeFilesIf reader l baseDir viewModel fuel = ⟨l, [], []⟩) ∧
    (aFix true l = true → l.all (neChar '\r') = true → jsTrimmed l = true →
      containsQuad l = false → minifyHtml l = l) ∧
    (replacePlaceholders [] viewModel = [] ∧ renderIf [] viewModel = [] ∧
      includeFiles reader [] baseDir = ⟨[], [], []⟩ ∧
      includeFilesIf reader [] baseDir viewModel fuel = ⟨[], [], []⟩ ∧
      minifyHtml [] = []) :=
  ⟨fun h => replacePlaceholders_id_of_no_match h viewModel,
   fun h => renderIf_id_of_no_match h viewModel,
   fun h => includeFiles_id_of_no_match h reader baseDir,
   fun h => includeFilesIf_id_of_no_match h reader baseDir viewModel fuel,
   fun h1 h2 h3 h4 => minifyHtml_id_of_minified h1 h2 h3 h4,
   @replacePlaceholders_id_of_no_match [] rfl viewModel,
   @renderIf_id_of_no_match [] rfl viewModel,
   @includeFiles_id_of_no_match [] rfl reader baseDir,
   @includeFilesIf_id_of_no_match [] rfl reader baseDir viewModel fuel,
   @minifyHtml_id_of_minified [] rfl rfl rfl rfl⟩

/-- Closed witness for the identity theorem at a concrete token-free
document. -/
theorem passes_identity_on_token_free_witness :
    (hasPlaceholder "a b".data = false ∧ hasRenderIf "a b".data = false ∧
      hasInclude "a b".data = false ∧ hasIncludeIf "a b".data = false ∧
      aFix true "a b".data = true ∧ "a b".data.all (neChar '\r') = true ∧
      jsTrimmed "a b".data = true ∧ containsQuad "a b".data = false) ∧
    replacePlaceholders "a b".data (fun _ => none) = "a b".data ∧
    renderIf "a b".data (fun _ => none) = "a b".data ∧
    includeFiles (fun _ => none) "a b".data ".".data = ⟨"a b".data, [], []⟩ ∧
    includeFilesIf (fun _ => none) "a b".data ".".data (fun _ => none) 9 =
      ⟨"a b".data, [], []⟩ ∧
    minifyHtml "a b".data = "a b".data := by
  have h := passes_identity_on_token_free (fun _ => none) (fun _ => none)
    ".".data 9 "a b".data
  exact ⟨⟨by decide, by decide, by decide, by decide, by decide, by decide,
      by decide, by decide⟩,
    h.1 (by decide), h.2.1 (by decide), h.2.2.1 (by decide), h.2.2.2.1 (by decide),
    h.2.2.2.2.1 (by decide) (by decide) (by decide) (by decide)⟩

/-! ## Falsy conditional includes and the stale `lastIndex` skip

`includeFilesIf` keeps the regex object's `lastIndex` (measured against the
pre-replacement text) while mutating the live document, so substituting a
shorter replacement shifts the following text left into the already-scanned
region: a token immediately following a replaced token can be skipped. -/

/-- C6 counterexample: two adjacent `includeIf` tokens whose keys are both
absent (hence falsy).  The claim predicts both tokens are substituted by the
empty string, leaving the empty document; the pass actually leaves the
second token verbatim, because the first (empty) substitution shifted it
into the already-scanned region. -/
theorem includeIf_falsy_substitution_counterexample :
    (includeFilesIf (fun _ => some "X".data)
        "<!-- includeIf(p, a.txt); --><!-- includeIf(q, b.txt); -->".data
        ".".data (fun _ => none) 9).doc
      = "<!-- includeIf(q, b.txt); -->".data ∧
    "<!-- includeIf(q, b.txt); -->".data ≠ ([] : List Char) := by decide

theorem includeFilesIfGo_all_falsy (r₁ r₂ : Reader) (baseDir : List Char)
    (viewModel : ViewModel) (hvm : ∀ k, truthyOpt (viewModel k) = false) :
    ∀ (fuel : Nat) (html : List Char) (idx : Nat),
      includeFilesIfGo r₁ baseDir viewModel fuel html idx =
          includeFilesIfGo r₂ baseDir viewModel fuel html idx ∧
        (includeFilesIfGo r₁ baseDir viewModel fuel html idx).logs = [] ∧
        (includeFilesIfGo r₁ baseDir viewModel fuel html idx).reads = [] := by
  intro fuel
  induction fuel with
  | zero => intro html idx; exact ⟨rfl, rfl, rfl⟩
  | succ n ih =>
    intro html idx
    rw [includeFilesIfGo, includeFilesIfGo]
    cases hf : findIncludeIf (html.drop idx) idx with
    | none => exact ⟨rfl, rfl, rfl⟩
    | some x =>
      obtain ⟨i, keyRaw, fnRaw, m⟩ := x
      simp only [hvm (jsTrim keyRaw), Bool.false_eq_true, if_false]
      exact ih (replaceFirstL m [] html) (i + m.length)

/-- C6 (amended): an `includeIf` token whose key is falsy or absent triggers
no read — when every key of the view model is falsy or absent, the pass
invokes the file reader on no path at all, logs nothing, and returns the
same result for any two file readers.  (A falsy token reached by the scan is
substituted by the empty string, but a falsy token shifted into the
already-scanned region by a preceding shorter substitution is left in
place — see the counterexample.) -/
theorem includeIf_falsy_no_read (r₁ r₂ : Reader) (html baseDir : List Char)
    (viewModel : ViewModel) (fuel : Nat)
    (hvm : ∀ k, truthyOpt (viewModel k) = false) :
    includeFilesIf r₁ html baseDir viewModel fuel =
        includeFilesIf r₂ html baseDir viewModel fuel ∧
      (includeFilesIf r₁ html baseDir viewModel fuel).logs = [] ∧
      (includeFilesIf r₁ html baseDir viewModel fuel).reads = [] :=
  includeFilesIfGo_all_falsy r₁ r₂ baseDir viewModel hvm fuel html 0

/-- Closed witness: with an all-absent view model the pass ignores the
reader and performs no read. -/
theorem includeIf_falsy_no_read_witness :
    includeFilesIf (fun _ => some "A".data)
        "<div><!-- includeIf(flag, f.txt); --></div>".data ".".data
        (fun _ => none) 9 =
      includeFilesIf (fun _ => some "B".data)
        "<div><!-- includeIf(flag, f.txt); --></div>".data ".".data
        (fun _ => none) 9 ∧
    (includeFilesIf (fun _ => some "A".data)
        "<div><!-- includeIf(flag, f.txt); --></div>".data ".".data
        (fun _ => none) 9).reads = [] :=
  ⟨(includeIf_falsy_no_read (fun _ => some "A".data) (fun _ => some "B".data)
      "<div><!-- includeIf(flag, f.txt); --></div>".data ".".data
      (fun _ => none) 9 (fun _ => rfl)).1,
   (includeIf_falsy_no_read (fun _ => some "A".data) (fun _ => some "B".data)
      "<div><!-- includeIf(flag, f.txt); --></div>".data ".".data
      (fun _ => none) 9 (fun _ => rfl)).2.2⟩

/-- C7 counterexample: the second of two adjacent `includeIf` tokens is not
found by the scan (the first token's empty substitution shifted it before
the stale `lastIndex`), so it is neither read nor substituted and survives
into the output. -/
theorem includeFilesIf_skipped_token_counterexample :
    (includeFilesIf (fun _ => some "Y".data)
        "<!-- includeIf(u, c.txt); --><!-- includeIf(w, d.txt); -->".data
        ".".data (fun _ => none) 9).doc
      = "<!-- includeIf(w, d.txt); -->".data ∧
    hasIncludeIf
        (includeFilesIf (fun _ => some "Y".data)
          "<!-- includeIf(u, c.txt); --><!-- includeIf(w, d.txt); -->".data
          ".".data (fun _ => none) 9).doc = true := by decide

/-- C7 (amended): `includeFilesIf` processes matches one at a time against
the live document — each replacement is applied immediately
(`html.replace(match[0], ...)`, first occurrence), and the next scan starts
at `match.index + match[0].length`, the index just past the matched token
measured in the pre-replacement text.  A replacement shorter than its token
shifts the following text into the skipped region, so a token immediately
following it can be left unprocessed. -/
theorem includeFilesIf_live_scan_steps (reader : Reader) (baseDir : List Char)
    (viewModel : ViewModel) (fuel : Nat) (html : List Char) (idx : Nat) :
    (findIncludeIf (html.drop idx) idx = none →
      includeFilesIfGo reader baseDir viewModel (fuel + 1) html idx =
        ⟨html, [], []⟩) ∧
    (∀ i keyRaw fnRaw m,
      findIncludeIf (html.drop idx) idx = some (i, keyRaw, fnRaw, m) →
      (truthyOpt (viewModel (jsTrim keyRaw)) = false →
        includeFilesIfGo reader baseDir viewModel (fuel + 1) html idx =
          includeFilesIfGo reader baseDir viewModel fuel
            (replaceFirstL m [] html) (i + m.length)) ∧
      (∀ content, truthyOpt (viewModel (jsTrim keyRaw)) = true →
        reader (joinPath baseDir (jsTrim fnRaw)) = some content →
        includeFilesIfGo reader baseDir viewModel (fuel + 1) html idx =
          ⟨(includeFilesIfGo reader baseDir viewModel fuel
              (replaceFirstL m content html) (i + m.length)).doc,
           (includeFilesIfGo reader baseDir viewModel fuel
              (replaceFirstL m content html) (i + m.length)).logs,
           joinPath baseDir (jsTrim fnRaw) ::
             (includeFilesIfGo reader baseDir viewModel fuel
                (replaceFirstL m content html) (i + m.length)).reads⟩)) := by
  constructor
  · intro hf
    rw [includeFilesIfGo, hf]
  · intro i keyRaw fnRaw m hf
    constructor
    · intro ht
      rw [includeFilesIfGo, hf]
      simp only [ht, Bool.false_eq_true, if_false]
    · intro content ht hr
      rw [includeFilesIfGo, hf]
      simp only [ht, if_true, hr]

/-- Closed witness for the live-scan stepping at a concrete falsy token. -/
theorem includeFilesIf_live_scan_steps_witness :
    findIncludeIf ("<!-- includeIf(k, f.txt); -->".data.drop 0) 0 =
      some (0, "k".data, " f.txt".data, "<!-- includeIf(k, f.txt); -->".data) ∧
    truthyOpt ((fun _ => none : ViewModel) (jsTrim "k".data)) = false ∧
    includeFilesIfGo (fun _ => none) ".".data (fun _ => none) 4
        "<!-- includeIf(k, f.txt); -->".data 0 =
      includeFilesIfGo (fun _ => none) ".".data (fun _ => none) 3
        (replaceFirstL "<!-- includeIf(k, f.txt); -->".data []
          "<!-- includeIf(k, f.txt); -->".data)
        (0 + "<!-- includeIf(k, f.txt); -->".data.length) := by
  refine ⟨by decide, by decide, ?_⟩
  exact ((includeFilesIf_live_scan_steps (fun _ => none) ".".data (fun _ => none) 3
    "<!-- includeIf(k, f.txt); -->".data 0).2 0 "k".data " f.txt".data
    "<!-- includeIf(k, f.txt); -->".data (by decide)).1 (by decide)

/-! ## The key-mismatch end-to-end example

The repository's test checks `replacePlaceholders` alone on
`"<p><!-- conent --></p>"` with `{foo: "bar"}`; the full render pipeline
ends in `minifyHtml`, which deletes every remaining comment span, so the
full render does not return the document unchanged. -/

/-- C10 counterexample: the full render of `"<p><!-- conent --></p>"` with
view model `{foo: "bar"}` is `"<p></p>"`, not the unchanged input — the
unmatched placeholder survives substitution but is then stripped as a
comment by minification. -/
theorem renderTemplate_key_mismatch_counterexample :
    (renderTemplate (fun _ => none) "<p><!-- conent --></p>".data
        (fun k => if k = "foo".data then some (.str "bar".data) else none)
        ".".data 9).1 ≠ "<p><!-- conent --></p>".data ∧
    (renderTemplate (fun _ => none) "<p><!-- conent --></p>".data
        (fun k => if k = "foo".data then some (.str "bar".data) else none)
        ".".data 9).1 = "<p></p>".data := by decide

/-- C10 (amended): on `"<p><!-- conent --></p>"` with view model
`{foo: "bar"}` the substitution pass leaves the document byte-identical (the
key mismatch leaves the token verbatim), and the full render returns
`"<p></p>"` because the final minification pass deletes the remaining
comment token. -/
theorem renderTemplate_key_mismatch_amended (fuel : Nat) :
    replacePlaceholders "<p><!-- conent --></p>".data
        (fun k => if k = "foo".data then some (.str "bar".data) else none) =
      "<p><!-- conent --></p>".data ∧
    (renderTemplate (fun _ => none) "<p><!-- conent --></p>".data
        (fun k => if k = "foo".data then some (.str "bar".data) else none)
        ".".data fuel).1 = "<p></p>".data := by
  refine ⟨by decide, ?_⟩
  have e3 : includeFilesIf (fun _ => none) "<p><!-- conent --></p>".data ".".data
      (fun k => if k = "foo".data then some (.str "bar".data) else none) fuel =
      ⟨"<p><!-- conent --></p>".data, [], []⟩ :=
    includeFilesIf_id_of_no_match (by decide) _ _ _ _
  simp only [renderTemplate, show renderIf "<p><!-- conent --></p>".data
      (fun k => if k = "foo".data then some (.str "bar".data) else none) =
      "<p><!-- conent --></p>".data from by decide,
    show replacePlaceholders "<p><!-- conent --></p>".data
      (fun k => if k = "foo".data then some (.str "bar".data) else none) =
      "<p><!-- conent --></p>".data from by decide, e3]
  decide

/-- Closed witness: the amended end-to-end behaviour at one fuel value. -/
theorem renderTemplate_key_mismatch_amended_witness :
    (renderTemplate (fun _ => none) "<p><!-- conent --></p>".data
        (fun k => if k = "foo".data then some (.str "bar".data) else none)
        ".".data 3).1 = "<p></p>".data :=
  (renderTemplate_key_mismatch_amended 3).2

/-! ## Placeholder substitution: behaviour on an arbitrary occurrence -/

theorem not_isJsWordChar_of_isJsSpace {c : Char} (h : isJsSpace c = true) :
    isJsWordChar c = false := by
  simp only [isJsSpace, Bool.or_eq_true, Bool.and_eq_true, decide_eq_true_eq] at h
  simp only [isJsWordChar, Bool.or_eq_false_iff, Bool.and_eq_false_iff,
    decide_eq_false_iff_not]
  omega

theorem placeholderMatch_none_of_head_ne {c : Char} {t : List Char} (hc : c ≠ '<') :
    placeholderMatch (c :: t) = none := by
  unfold placeholderMatch
  split
  next t' heq => exact absurd (List.cons.inj heq).1 hc
  · rfl

theorem replacePlaceholdersGo_no_lt (viewModel : ViewModel) {pre : List Char}
    (hpre : '<' ∉ pre) (post : List Char) :
    replacePlaceholdersGo viewModel (pre ++ post) 0 =
      pre ++ replacePlaceholdersGo viewModel post 0 := by
  induction pre with
  | nil => rfl
  | cons c p ih =>
    have hc : c ≠ '<' := fun h => hpre (by simp [h])
    rw [List.cons_append, replacePlaceholdersGo,
      placeholderMatch_none_of_head_ne hc,
      ih (fun h => hpre (List.mem_cons_of_mem c h)), List.cons_append]

/-- A placeholder token `<!--ws1 key ws2-->` as raw text. -/
def mkPlaceholder (ws1 key ws2 : List Char) : List Char :=
  '<' :: '!' :: '-' :: '-' :: (ws1 ++ key ++ ws2 ++ ['-', '-', '>'])

theorem placeholderMatch_token {ws1 key ws2 : List Char} (post : List Char)
    (hkey : key ≠ []) (hkw : ∀ c ∈ key, isJsWordChar c = true)
    (hws1 : ∀ c ∈ ws1, isJsSpace c = true) (hws2 : ∀ c ∈ ws2, isJsSpace c = true) :
    placeholderMatch (mkPlaceholder ws1 key ws2 ++ post) =
      some (key, mkPlaceholder ws1 key ws2, post) := by
  cases key with
  | nil => exact absurd rfl hkey
  | cons k key' =>
    have hkspace : ¬ isJsSpace k = true := by
      simp [not_isJsSpace_of_isJsWordChar (hkw k (List.mem_cons_self k key'))]
    have hkw' : ∀ c ∈ key', isJsWordChar c = true :=
      fun c hc => hkw c (List.mem_cons_of_mem k hc)
    have hboundT : (ws2 ++ '-' :: '-' :: '>' :: post).takeWhile isJsWordChar = [] := by
      cases ws2 with
      | nil =>
        rw [List.nil_append, List.takeWhile_cons_of_neg (by decide)]
      | cons w ws2' =>
        have hw : ¬ isJsWordChar w = true := by
          simp [not_isJsWordChar_of_isJsSpace (hws2 w (List.mem_cons_self w ws2'))]
        rw [List.cons_append, List.takeWhile_cons_of_neg hw]
    have hboundD : (ws2 ++ '-' :: '-' :: '>' :: post).dropWhile isJsWordChar =
        ws2 ++ '-' :: '-' :: '>' :: post := by
      cases ws2 with
      | nil =>
        rw [List.nil_append, List.dropWhile_cons_of_neg (by decide)]
      | cons w ws2' =>
        have hw : ¬ isJsWordChar w = true := by
          simp [not_isJsWordChar_of_isJsSpace (hws2 w (List.mem_cons_self w ws2'))]
        rw [List.cons_append, List.dropWhile_cons_of_neg hw]
    have hA : (ws1 ++ (k :: (key' ++ (ws2 ++ '-' :: '-' :: '>' :: post)))).takeWhile
        isJsSpace = ws1 := by
      rw [List.takeWhile_append_of_pos hws1, List.takeWhile_cons_of_neg hkspace,
        List.append_nil]
    have hB : (ws1 ++ (k :: (key' ++ (ws2 ++ '-' :: '-' :: '>' :: post)))).dropWhile
        isJsSpace = k :: (key' ++ (ws2 ++ '-' :: '-' :: '>' :: post)) := by
      rw [List.dropWhile_append_of_pos hws1, List.dropWhile_cons_of_neg hkspace]
    have hC : (k :: (key' ++ (ws2 ++ '-' :: '-' :: '>' :: post))).takeWhile
        isJsWordChar = k :: key' := by
      rw [List.takeWhile_cons_of_pos (hkw k (List.mem_cons_self k key')),
        List.takeWhile_append_of_pos hkw', hboundT, List.append_nil]
    have hD : (k :: (key' ++ (ws2 ++ '-' :: '-' :: '>' :: post))).dropWhile
        isJsWordChar = ws2 ++ '-' :: '-' :: '>' :: post := by
      rw [List.dropWhile_cons_of_pos (hkw k (List.mem_cons_self k key')),
        List.dropWhile_append_of_pos hkw', hboundD]
    have hE : (ws2 ++ '-' :: '-' :: '>' :: post).takeWhile isJsSpace = ws2 := by
      rw [List.takeWhile_append_of_pos hws2, List.takeWhile_cons_of_neg (by decide),
        List.append_nil]
    have hF : (ws2 ++ '-' :: '-' :: '>' :: post).dropWhile isJsSpace =
        '-' :: '-' :: '>' :: post := by
      rw [List.dropWhile_append_of_pos hws2, List.dropWhile_cons_of_neg (by decide)]
    unfold mkPlaceholder
    simp only [List.cons_append, List.nil_append, List.append_assoc]
    simp only [placeholderMatch, hA, hB, hC, hD, hE, hF]
    simp [List.append_assoc]

/-- C2: in any document `pre ++ <!--ws1 key ws2--> ++ post` (with `pre`
free of `<`, so the token is the leftmost match), a placeholder token whose
identifier is a key of the view model — including keys bound to falsy
values — is replaced by the value's text representation, and a token whose
identifier is absent is left byte-identical including its internal white
space; scanning then continues on `post`, which covers zero, one, many and
repeated occurrences, and the empty document maps to itself. -/
theorem replacePlaceholders_substitution_spec (viewModel : ViewModel)
    (pre ws1 key ws2 post : List Char) (hpre : '<' ∉ pre) (hkey : key ≠ [])
    (hkw : ∀ c ∈ key, isJsWordChar c = true)
    (hws1 : ∀ c ∈ ws1, isJsSpace c = true)
    (hws2 : ∀ c ∈ ws2, isJsSpace c = true) :
    replacePlaceholders (pre ++ mkPlaceholder ws1 key ws2 ++ post) viewModel =
      pre ++ ((match viewModel key with
        | some v => jsString v
        | none => mkPlaceholder ws1 key ws2) ++
          replacePlaceholders post viewModel) ∧
    replacePlaceholders [] viewModel = [] := by
  refine ⟨?_, rfl⟩
  unfold replacePlaceholders
  rw [List.append_assoc, replacePlaceholdersGo_no_lt viewModel hpre]
  rw [replacePlaceholdersGo_match viewModel
    (placeholderMatch_token post hkey hkw hws1 hws2)]

/-- Closed witness: a present key bound to the falsy value `0` is replaced
by `"0"` in context. -/
theorem replacePlaceholders_substitution_spec_witness :
    ('<' ∉ "p".data ∧ "title".data ≠ [] ∧
      (∀ c ∈ "title".data, isJsWordChar c = true) ∧
      (∀ c ∈ " ".data, isJsSpace c = true)) ∧
    replacePlaceholders
        ("p".data ++ mkPlaceholder " ".data "title".data " ".data ++ "q".data)
        (fun k => if k = "title".data then some (.num 0) else none) =
      "p".data ++
        ((match (fun k => if k = "title".data then some (.num 0) else none :
            ViewModel) "title".data with
          | some v => jsString v
          | none => mkPlaceholder " ".data "title".data " ".data) ++
          replacePlaceholders "q".data
            (fun k => if k = "title".data then some (.num 0) else none)) :=
  ⟨⟨by decide, by decide, by decide, by decide⟩,
   (replacePlaceholders_substitution_spec
      (fun k => if k = "title".data then some (.num 0) else none)
      "p".data " ".data "title".data " ".data "q".data
      (by decide) (by decide) (by decide) (by decide) (by decide)).1⟩

/-! ## Conditional rendering: behaviour on an arbitrary span -/

theorem renderIfOpenMatch_none_of_head_ne {c : Char} {t : List Char} (hc : c ≠ '<') :
    renderIfOpenMatch (c :: t) = none := by
  unfold renderIfOpenMatch
  split
  next t' heq => exact absurd (List.cons.inj heq).1 hc
  · rfl

theorem endIfMatch_none_of_head_ne {c : Char} {t : List Char} (hc : c ≠ '<') :
    endIfMatch (c :: t) = none := by
  unfold endIfMatch
  split
  next t' heq => exact absurd (List.cons.inj heq).1 hc
  · rfl

theorem renderIfGo_no_lt (viewModel : ViewModel) {pre : List Char}
    (hpre : '<' ∉ pre) (post : List Char) :
    renderIfGo viewModel (pre ++ post) 0 = pre ++ renderIfGo viewModel post 0 := by
  induction pre with
  | nil => rfl
  | cons c p ih =>
    have hc : c ≠ '<' := fun h => hpre (by simp [h])
    rw [List.cons_append, renderIfGo, renderIfOpenMatch_none_of_head_ne hc,
      ih (fun h => hpre (List.mem_cons_of_mem c h)), List.cons_append]

theorem findEndIf_no_lt {content : List Char} (hc : '<' ∉ content)
    {rest' em post : List Char} (h : endIfMatch rest' = some (em, post)) :
    findEndIf (content ++ rest') = some (content, em, post) := by
  induction content with
  | nil =>
    cases rest' with
    | nil => exact absurd h (by simp [endIfMatch])
    | cons c t => rw [List.nil_append, findEndIf, h]
  | cons c content' ih =>
    have hcne : c ≠ '<' := fun hcc => hc (by simp [hcc])
    rw [List.cons_append, findEndIf, endIfMatch_none_of_head_ne hcne,
      ih (fun hm => hc (List.mem_cons_of_mem c hm)) ]

/-- The optional semicolon of a command tail. -/
def semiPart : Bool → List Char
  | true => [';']
  | false => []

theorem tailMatch_token {ws : List Char} (semi : Bool) (post : List Char)
    (hws : ∀ c ∈ ws, isJsSpace c = true) :
    tailMatch (semiPart semi ++ ws ++ '-' :: '-' :: '>' :: post) =
      some (semiPart semi ++ ws ++ ['-', '-', '>'], post) := by
  have htake : (ws ++ '-' :: '-' :: '>' :: post).takeWhile isJsSpace = ws := by
    rw [List.takeWhile_append_of_pos hws, List.takeWhile_cons_of_neg (by decide),
      List.append_nil]
  have hdrop : (ws ++ '-' :: '-' :: '>' :: post).dropWhile isJsSpace =
      '-' :: '-' :: '>' :: post := by
    rw [List.dropWhile_append_of_pos hws, List.dropWhile_cons_of_neg (by decide)]
  cases semi with
  | true =>
    simp only [semiPart, List.cons_append, List.nil_append]
    rw [tailMatch]
    simp only [htake, hdrop]
  | false =>
    simp only [semiPart, List.nil_append]
    unfold tailMatch
    split
    next t5 heq =>
      exfalso
      cases ws with
      | nil =>
        rw [List.nil_append] at heq
        exact absurd (List.cons.inj heq).1 (by decide)
      | cons w ws' =>
        rw [List.cons_append] at heq
        have hw : w = ';' := (List.cons.inj heq).1
        have hsp := hws w (List.mem_cons_self w ws')
        rw [hw] at hsp
        exact absurd hsp (by decide)
    next t4 hne =>
      simp only [htake, hdrop]

/-- A `renderIf` opening token as raw text. -/
def mkRenderIfOpen (ws1 key : List Char) (semi : Bool) (ws2 : List Char) :
    List Char :=
  '<' :: '!' :: '-' :: '-' ::
    (ws1 ++ "renderIf(".data ++ key ++ ')' :: (semiPart semi ++ ws2 ++ ['-', '-', '>']))

/-- An `endIf` closing token as raw text. -/
def mkEndIf (ws3 : List Char) (semi : Bool) (ws4 : List Char) : List Char :=
  '<' :: '!' :: '-' :: '-' ::
    (ws3 ++ "endIf()".data ++ (semiPart semi ++ ws4 ++ ['-', '-', '>']))

theorem renderIfOpenMatch_token {ws1 key ws2 : List Char} (semi : Bool)
    (post : List Char) (hkey : key ≠ [])
    (hknp : ∀ c ∈ key, neChar ')' c = true)
    (hws1 : ∀ c ∈ ws1, isJsSpace c = true)
    (hws2 : ∀ c ∈ ws2, isJsSpace c = true) :
    renderIfOpenMatch (mkRenderIfOpen ws1 key semi ws2 ++ post) =
      some (key, mkRenderIfOpen ws1 key semi ws2, post) := by
  have hlit : "renderIf(".data = ['r', 'e', 'n', 'd', 'e', 'r', 'I', 'f', '('] := rfl
  have hA : (ws1 ++ ('r' :: 'e' :: 'n' :: 'd' :: 'e' :: 'r' :: 'I' :: 'f' :: '(' ::
      (key ++ ')' :: (semiPart semi ++ (ws2 ++ '-' :: '-' :: '>' :: post))))).takeWhile
      isJsSpace = ws1 := by
    rw [List.takeWhile_append_of_pos hws1, List.takeWhile_cons_of_neg (by decide),
      List.append_nil]
  have hB : (ws1 ++ ('r' :: 'e' :: 'n' :: 'd' :: 'e' :: 'r' :: 'I' :: 'f' :: '(' ::
      (key ++ ')' :: (semiPart semi ++ (ws2 ++ '-' :: '-' :: '>' :: post))))).dropWhile
      isJsSpace = 'r' :: 'e' :: 'n' :: 'd' :: 'e' :: 'r' :: 'I' :: 'f' :: '(' ::
      (key ++ ')' :: (semiPart semi ++ (ws2 ++ '-' :: '-' :: '>' :: post))) := by
    rw [List.dropWhile_append_of_pos hws1, List.dropWhile_cons_of_neg (by decide)]
  have hC : (key ++ ')' :: (semiPart semi ++ (ws2 ++ '-' :: '-' :: '>' :: post))).takeWhile
      (neChar ')') = key := by
    rw [List.takeWhile_append_of_pos hknp, List.takeWhile_cons_of_neg (by decide),
      List.append_nil]
  have hD : (key ++ ')' :: (semiPart semi ++ (ws2 ++ '-' :: '-' :: '>' :: post))).dropWhile
      (neChar ')') = ')' :: (semiPart semi ++ (ws2 ++ '-' :: '-' :: '>' :: post)) := by
    rw [List.dropWhile_append_of_pos hknp, List.dropWhile_cons_of_neg (by decide)]
  have hT : tailMatch (semiPart semi ++ (ws2 ++ '-' :: '-' :: '>' :: post)) =
      some (semiPart semi ++ ws2 ++ ['-', '-', '>'], post) := by
    rw [← List.append_assoc]
    exact tailMatch_token semi post hws2
  unfold mkRenderIfOpen
  simp only [hlit, List.cons_append, List.nil_append, List.append_assoc]
  simp only [renderIfOpenMatch, hA, hB, hC, hD]
  rw [show (['r', 'e', 'n', 'd', 'e', 'r', 'I', 'f', '('] : List Char).isPrefixOf
      ('r' :: 'e' :: 'n' :: 'd' :: 'e' :: 'r' :: 'I' :: 'f' :: '(' ::
        (key ++ ')' :: (semiPart semi ++ (ws2 ++ '-' :: '-' :: '>' :: post)))) = true
    from by simp [List.isPrefixOf]]
  simp only [if_true, List.drop_succ_cons, List.drop_zero, hC, hD]
  rw [show key.isEmpty = false from by cases key with
    | nil => exact absurd rfl hkey
    | cons a b => rfl]
  simp only [Bool.false_eq_true, if_false, hT]
  simp [List.append_assoc]

theorem endIfMatch_token {ws3 ws4 : List Char} (semi : Bool) (post : List Char)
    (hws3 : ∀ c ∈ ws3, isJsSpace c = true)
    (hws4 : ∀ c ∈ ws4, isJsSpace c = true) :
    endIfMatch (mkEndIf ws3 semi ws4 ++ post) =
      some (mkEndIf ws3 semi ws4, post) := by
  have hlit : "endIf()".data = ['e', 'n', 'd', 'I', 'f', '(', ')'] := rfl
  have hA : (ws3 ++ ('e' :: 'n' :: 'd' :: 'I' :: 'f' :: '(' :: ')' ::
      (semiPart semi ++ (ws4 ++ '-' :: '-' :: '>' :: post)))).takeWhile
      isJsSpace = ws3 := by
    rw [List.takeWhile_append_of_pos hws3, List.takeWhile_cons_of_neg (by decide),
      List.append_nil]
  have hB : (ws3 ++ ('e' :: 'n' :: 'd' :: 'I' :: 'f' :: '(' :: ')' ::
      (semiPart semi ++ (ws4 ++ '-' :: '-' :: '>' :: post)))).dropWhile
      isJsSpace = 'e' :: 'n' :: 'd' :: 'I' :: 'f' :: '(' :: ')' ::
      (semiPart semi ++ (ws4 ++ '-' :: '-' :: '>' :: post)) := by
    rw [List.dropWhile_append_of_pos hws3, List.dropWhile_cons_of_neg (by decide)]
  have hT : tailMatch (semiPart semi ++ (ws4 ++ '-' :: '-' :: '>' :: post)) =
      some (semiPart semi ++ ws4 ++ ['-', '-', '>'], post) := by
    rw [← List.append_assoc]
    exact tailMatch_token semi post hws4
  unfold mkEndIf
  simp only [hlit, List.cons_append, List.nil_append, List.append_assoc]
  simp only [endIfMatch, hA, hB]
  rw [show (['e', 'n', 'd', 'I', 'f', '(', ')'] : List Char).isPrefixOf
      ('e' :: 'n' :: 'd' :: 'I' :: 'f' :: '(' :: ')' ::
        (semiPart semi ++ (ws4 ++ '-' :: '-' :: '>' :: post))) = true
    from by simp [List.isPrefixOf]]
  simp only [if_true, List.drop_succ_cons, List.drop_zero, hT]
  simp [List.append_assoc]

/-- C3: in any document
`pre ++ renderIf(key)-token ++ content ++ endIf()-token ++ post` (with `pre`
and `content` free of `<`, so the span is the leftmost match and the
`endIf()` token is the nearest one — the non-greedy, non-nesting matching),
the whole span is replaced by the inner content alone when `key` is truthy
in the view model, and by the empty string when `key` is falsy or absent;
scanning then continues on `post`, so multiple independent spans are
evaluated independently against the same view model, and the empty document
maps to itself. -/
theorem renderIf_span_spec (viewModel : ViewModel)
    (pre ws1 key ws2 content ws3 ws4 post : List Char) (semi1 semi2 : Bool)
    (hpre : '<' ∉ pre) (hkey : key ≠ [])
    (hknp : ∀ c ∈ key, neChar ')' c = true)
    (hws1 : ∀ c ∈ ws1, isJsSpace c = true) (hws2 : ∀ c ∈ ws2, isJsSpace c = true)
    (hws3 : ∀ c ∈ ws3, isJsSpace c = true) (hws4 : ∀ c ∈ ws4, isJsSpace c = true)
    (hcontent : '<' ∉ content) :
    renderIf (pre ++ mkRenderIfOpen ws1 key semi1 ws2 ++ content ++
        mkEndIf ws3 semi2 ws4 ++ post) viewModel =
      pre ++ ((if truthyOpt (viewModel key) then content else []) ++
        renderIf post viewModel) ∧
    renderIf [] viewModel = [] := by
  refine ⟨?_, rfl⟩
  unfold renderIf
  rw [List.append_assoc, List.append_assoc, List.append_assoc,
    renderIfGo_no_lt viewModel hpre]
  rw [renderIfGo_match viewModel
    (renderIfOpenMatch_token semi1 (content ++ (mkEndIf ws3 semi2 ws4 ++ post))
      hkey hknp hws1 hws2)
    (findEndIf_no_lt hcontent (endIfMatch_token semi2 post hws3 hws4))]

/-- Closed witness: one truthy span in context. -/
theorem renderIf_span_spec_witness :
    ('<' ∉ "ab".data ∧ "show".data ≠ [] ∧
      (∀ c ∈ "show".data, neChar ')' c = true) ∧ '<' ∉ "Hello".data) ∧
    renderIf ("ab".data ++ mkRenderIfOpen " ".data "show".data true " ".data ++
        "Hello".data ++ mkEndIf " ".data true " ".data ++ "cd".data)
        (fun k => if k = "show".data then some (.bool true) else none) =
      "ab".data ++
        ((if truthyOpt ((fun k =>
            if k = "show".data then some (.bool true) else none : ViewModel)
            "show".data) then "Hello".data else []) ++
          renderIf "cd".data
            (fun k => if k = "show".data then some (.bool true) else none)) :=
  ⟨⟨by decide, by decide, by decide, by decide⟩,
   (renderIf_span_spec (fun k => if k = "show".data then some (.bool true) else none)
      "ab".data " ".data "show".data " ".data "Hello".data " ".data " ".data
      "cd".data true true (by decide) (by decide) (by decide) (by decide)
      (by decide) (by decide) (by decide) (by decide)).1⟩

/-! ## Minifier invariants: what each minifier stage establishes

`stripLineLead` leaves no white space at any line start (`aFix`),
`collapseNewlines` preserves that and leaves no carriage return, `jsTrim`
leaves a trimmed document, and none of the three can create a new `<!--`.
These facts drive both the idempotence analysis and its failure. -/

theorem stripLineLeadGo_skip (pre l : List Char) (b : Bool) :
    stripLineLeadGo (pre ++ l) pre.length b = stripLineLeadGo l 0 b := by
  induction pre with
  | nil => rfl
  | cons c p ih => simpa [stripLineLeadGo] using ih

theorem stripLineLeadGo_cons_false (e : Char) (t : List Char) :
    stripLineLeadGo (e :: t) 0 false = e :: stripLineLeadGo t 0 (isLineTerm e) := by
  simp [stripLineLeadGo]

theorem stripLineLeadGo_cons_nonspace {d : Char} (r : List Char) (b : Bool)
    (hd : isJsSpace d = false) :
    stripLineLeadGo (d :: r) 0 b = d :: stripLineLeadGo r 0 (isLineTerm d) := by
  simp [stripLineLeadGo, hd]

theorem dropWhile_head_false {p : Char → Bool} {l : List Char} {c : Char}
    {t : List Char} (h : l.dropWhile p = c :: t) : p c = false := by
  induction l with
  | nil => exact absurd h (by simp)
  | cons d l' ih =>
    by_cases hd : p d
    · rw [List.dropWhile_cons_of_pos hd] at h
      exact ih h
    · rw [List.dropWhile_cons_of_neg hd] at h
      rw [← (List.cons.inj h).1]
      exact Bool.not_eq_true _ ▸ (by simpa using hd)

theorem aFix_head_nonspace_switch {x : List Char} {b b' : Bool}
    (h : aFix b' x = true)
    (hx : x = [] ∨ ∃ d x', x = d :: x' ∧ isJsSpace d = false) :
    aFix b x = true := by
  rcases hx with rfl | ⟨d, x', rfl, hd⟩
  · rfl
  · rw [aFix, Bool.and_eq_true] at h ⊢
    exact ⟨by simp [hd], h.2⟩

theorem aFix_stripLineLeadGo (l : List Char) : ∀ (s : Nat) (b : Bool),
    aFix b (stripLineLeadGo l s b) = true := by
  induction l with
  | nil => intro s b; cases s <;> rfl
  | cons c t ih =>
    intro s b
    cases s with
    | succ n => exact ih n b
    | zero =>
      by_cases hcsp : (b && isJsSpace c) = true
      · have hc : isJsSpace c = true := by
          rw [Bool.and_eq_true] at hcsp
          exact hcsp.2
        simp only [stripLineLeadGo, if_pos hcsp]
        have hlen : ((c :: t).takeWhile isJsSpace).length - 1 =
            (t.takeWhile isJsSpace).length := by
          rw [List.takeWhile_cons_of_pos hc]; simp
        rw [hlen]
        have key := stripLineLeadGo_skip (t.takeWhile isJsSpace)
          (t.dropWhile isJsSpace)
          (isLineTerm (((c :: t).takeWhile isJsSpace).getLastD ' '))
        rw [List.takeWhile_append_dropWhile] at key
        rw [key]
        have hin := ih (t.takeWhile isJsSpace).length
          (isLineTerm (((c :: t).takeWhile isJsSpace).getLastD ' '))
        rw [key] at hin
        apply aFix_head_nonspace_switch hin
        cases hdw : t.dropWhile isJsSpace with
        | nil => left; rfl
        | cons d r =>
          right
          have hd : isJsSpace d = false := dropWhile_head_false hdw
          exact ⟨d, stripLineLeadGo r 0 (isLineTerm d),
            stripLineLeadGo_cons_nonspace r _ hd, hd⟩
      · simp only [stripLineLeadGo, if_neg hcsp]
        rw [aFix, Bool.and_eq_true]
        have hfalse : (b && isJsSpace c) = false := by
          cases hx : (b && isJsSpace c) with
          | false => rfl
          | true => exact absurd hx hcsp
        exact ⟨by rw [hfalse]; rfl, ih 0 (isLineTerm c)⟩

theorem isLineTerm_of_isCrLf {c : Char} (h : isCrLf c = true) :
    isLineTerm c = true := by
  simp only [isCrLf, Bool.or_eq_true, decide_eq_true_eq] at h
  simp only [isLineTerm, Bool.or_eq_true, decide_eq_true_eq]
  omega

theorem collapseNewlinesGo_no_cr (l : List Char) :
    ∀ s, (collapseNewlinesGo l s).all (neChar '\r') = true := by
  induction l with
  | nil => intro s; cases s <;> rfl
  | cons c t ih =>
    intro s
    cases s with
    | succ n => exact ih n
    | zero =>
      by_cases hc : isCrLf c = true
      · simp only [collapseNewlinesGo, if_pos hc, List.all_cons, Bool.and_eq_true]
        exact ⟨by decide, ih _⟩
      · simp only [collapseNewlinesGo, if_neg hc, List.all_cons, Bool.and_eq_true]
        refine ⟨?_, ih 0⟩
        simp only [neChar, Bool.not_eq_true', beq_eq_false_iff_ne, ne_eq]
        intro hcc
        subst hcc
        exact hc (by decide)

theorem aFix_collapseNewlinesGo {l : List Char} :
    ∀ {b : Bool}, aFix b l = true → aFix b (collapseNewlinesGo l 0) = true := by
  induction l with
  | nil => intro b _; rfl
  | cons c t ih =>
    intro b h
    rw [aFix, Bool.and_eq_true] at h
    obtain ⟨h1, h2⟩ := h
    by_cases hc : isCrLf c = true
    · have hsp : isJsSpace c = true := isJsSpace_of_isCrLf hc
      have hb : b = false := by
        rw [Bool.not_eq_true'] at h1
        cases b with
        | false => rfl
        | true => rw [hsp] at h1; exact absurd h1 (by decide)
      have hterm : isLineTerm c = true := isLineTerm_of_isCrLf hc
      rw [hterm] at h2
      have hrun : ((c :: t).takeWhile isCrLf).length - 1 = 0 := by
        cases t with
        | nil => rw [List.takeWhile_cons_of_pos hc]; rfl
        | cons d t' =>
          have hd : isJsSpace d = false := by
            rw [aFix, Bool.and_eq_true] at h2
            simpa using h2.1
          have hdc : isCrLf d = false := by
            cases hdc : isCrLf d
            · rfl
            · exact absurd (isJsSpace_of_isCrLf hdc) (by simp [hd])
          rw [List.takeWhile_cons_of_pos hc,
            List.takeWhile_cons_of_neg (by simp [hdc])]
          rfl
      simp only [collapseNewlinesGo, if_pos hc, hrun]
      rw [aFix, Bool.and_eq_true, hb]
      exact ⟨by decide, by
        rw [show isLineTerm '\n' = true from by decide]
        exact ih h2⟩
    · simp only [collapseNewlinesGo, if_neg hc]
      rw [aFix, Bool.and_eq_true]
      exact ⟨h1, ih h2⟩

/-! ## No minifier stage creates a new `<!--` -/

theorem strip_false_cons_eq {t : List Char} {d : Char} {x : List Char}
    (h : stripLineLeadGo t 0 false = d :: x) :
    ∃ t', t = d :: t' ∧ stripLineLeadGo t' 0 (isLineTerm d) = x := by
  cases t with
  | nil => exact absurd h (by simp [stripLineLeadGo])
  | cons e t₁ =>
    rw [stripLineLeadGo_cons_false] at h
    obtain ⟨he, hx⟩ := List.cons.inj h
    subst he
    exact ⟨t₁, rfl, hx⟩

theorem containsQuad_cons_quad (t : List Char) :
    containsQuad ('<' :: '!' :: '-' :: '-' :: t) = true := by
  rw [containsQuad]
  simp [List.isPrefixOf]

theorem containsQuad_tail {c : Char} {t : List Char} (h : containsQuad t = true) :
    containsQuad (c :: t) = true := by
  rw [containsQuad, h, Bool.or_true]

theorem quad_stripLineLeadGo (l : List Char) : ∀ (s : Nat) (b : Bool),
    containsQuad (stripLineLeadGo l s b) = true → containsQuad l = true := by
  induction l with
  | nil => intro s b h; cases s <;> exact h
  | cons c t ih =>
    intro s b h
    cases s with
    | succ n => exact containsQuad_tail (ih n b h)
    | zero =>
      by_cases hcsp : (b && isJsSpace c) = true
      · simp only [stripLineLeadGo, if_pos hcsp] at h
        exact containsQuad_tail (ih _ _ h)
      · simp only [stripLineLeadGo, if_neg hcsp] at h
        rw [containsQuad, Bool.or_eq_true] at h
        rcases h with hpre | hq
        · obtain ⟨s', heq⟩ := List.isPrefixOf_iff_prefix.mp hpre
          obtain ⟨hc1, heq1⟩ := List.cons.inj heq.symm
          subst hc1
          rw [show isLineTerm '<' = false from by decide] at heq1
          obtain ⟨t₁, ht1, hx1⟩ := strip_false_cons_eq heq1
          rw [show isLineTerm '!' = false from by decide] at hx1
          obtain ⟨t₂, ht2, hx2⟩ := strip_false_cons_eq hx1
          rw [show isLineTerm '-' = false from by decide] at hx2
          obtain ⟨t₃, ht3, _⟩ := strip_false_cons_eq hx2
          rw [ht1, ht2, ht3]
          exact containsQuad_cons_quad t₃
        · exact containsQuad_tail (ih 0 _ hq)

theorem collapse_cons_eq {t : List Char} {d : Char} {x : List Char}
    (h : collapseNewlinesGo t 0 = d :: x) (hd : isCrLf d = false) :
    ∃ t', t = d :: t' ∧ collapseNewlinesGo t' 0 = x := by
  cases t with
  | nil => exact absurd h (by simp [collapseNewlinesGo])
  | cons e t₁ =>
    by_cases he : isCrLf e = true
    · simp only [collapseNewlinesGo, if_pos he] at h
      obtain ⟨he2, _⟩ := List.cons.inj h
      rw [← he2] at hd
      exact absurd hd (by decide)
    · simp only [collapseNewlinesGo, if_neg he] at h
      obtain ⟨he2, hx⟩ := List.cons.inj h
      subst he2
      exact ⟨t₁, rfl, hx⟩

theorem quad_collapseNewlinesGo (l : List Char) : ∀ (s : Nat),
    containsQuad (collapseNewlinesGo l s) = true → containsQuad l = true := by
  induction l with
  | nil => intro s h; cases s <;> exact h
  | cons c t ih =>
    intro s h
    cases s with
    | succ n => exact containsQuad_tail (ih n h)
    | zero =>
      by_cases hc : isCrLf c = true
      · simp only [collapseNewlinesGo, if_pos hc] at h
        rw [containsQuad, Bool.or_eq_true] at h
        rcases h with hpre | hq
        · obtain ⟨s', heq⟩ := List.isPrefixOf_iff_prefix.mp hpre
          exact absurd (List.cons.inj heq.symm).1 (by decide)
        · exact containsQuad_tail (ih _ hq)
      · simp only [collapseNewlinesGo, if_neg hc] at h
        rw [containsQuad, Bool.or_eq_true] at h
        rcases h with hpre | hq
        · obtain ⟨s', heq⟩ := List.isPrefixOf_iff_prefix.mp hpre
          obtain ⟨hc1, heq1⟩ := List.cons.inj heq.symm
          subst hc1
          obtain ⟨t₁, ht1, hx1⟩ := collapse_cons_eq heq1 (by decide)
          obtain ⟨t₂, ht2, hx2⟩ := collapse_cons_eq hx1 (by decide)
          obtain ⟨t₃, ht3, _⟩ := collapse_cons_eq hx2 (by decide)
          rw [ht1, ht2, ht3]
          exact containsQuad_cons_quad t₃
        · exact containsQuad_tail (ih 0 hq)

theorem containsQuad_append_left {x : List Char} (a : List Char)
    (h : containsQuad x = true) : containsQuad (a ++ x) = true := by
  induction a with
  | nil => exact h
  | cons c a' ih =>
    rw [List.cons_append]
    exact containsQuad_tail ih

theorem containsQuad_append_right {x : List Char} (btail : List Char)
    (h : containsQuad x = true) : containsQuad (x ++ btail) = true := by
  induction x with
  | nil => exact absurd h (by simp [containsQuad])
  | cons c x' ih =>
    rw [containsQuad, Bool.or_eq_true] at h
    rw [List.cons_append, containsQuad, Bool.or_eq_true]
    rcases h with hpre | hq
    · left
      obtain ⟨s', heq⟩ := List.isPrefixOf_iff_prefix.mp hpre
      apply List.isPrefixOf_iff_prefix.mpr
      exact ⟨s' ++ btail, by rw [← List.append_assoc, heq]; rw [List.cons_append]⟩
    · right
      exact ih hq

/-! ## Trim output is trimmed and is an infix of its input -/

theorem jsTrim_decomp (z : List Char) :
    z = z.takeWhile isJsSpace ++
      (jsTrim z ++ ((z.dropWhile isJsSpace).reverse.takeWhile isJsSpace).reverse) := by
  conv_lhs => rw [← List.takeWhile_append_dropWhile isJsSpace z]
  rw [List.takeWhile_append_dropWhile]
  conv_lhs => rw [← List.takeWhile_append_dropWhile isJsSpace z]
  congr 1
  conv_lhs => rw [← List.reverse_reverse (z.dropWhile isJsSpace)]
  conv_lhs =>
    rw [← List.takeWhile_append_dropWhile isJsSpace (z.dropWhile isJsSpace).reverse]
  rw [List.reverse_append]
  rfl

theorem jsTrimmed_jsTrim (z : List Char) : jsTrimmed (jsTrim z) = true := by
  rw [jsTrimmed, Bool.and_eq_true]
  constructor
  · cases hv : (z.dropWhile isJsSpace).reverse.dropWhile isJsSpace with
    | nil =>
      rw [jsTrim, hv]
      rfl
    | cons d v' =>
      rw [jsTrim, hv, List.head?_reverse]
      cases hw : z.dropWhile isJsSpace with
      | nil => rw [hw] at hv; exact absurd hv (by simp)
      | cons e w' =>
        have hsplit : (z.dropWhile isJsSpace).reverse =
            (z.dropWhile isJsSpace).reverse.takeWhile isJsSpace ++ (d :: v') := by
          rw [← hv, List.takeWhile_append_dropWhile]
        have h1 : ((z.dropWhile isJsSpace).reverse).getLast? = some e := by
          rw [List.getLast?_reverse, hw]
          rfl
        rw [hsplit,
          List.getLast?_append_of_ne_nil _ (show (d :: v') ≠ [] from by simp)] at h1
        rw [h1]
        have hpe : isJsSpace e = false := dropWhile_head_false hw
        simp [hpe]
  · cases hv : (z.dropWhile isJsSpace).reverse.dropWhile isJsSpace with
    | nil =>
      rw [jsTrim, hv]
      rfl
    | cons d v' =>
      rw [jsTrim, hv, List.getLast?_reverse]
      have hpd : isJsSpace d = false := dropWhile_head_false hv
      simp [hpd]

theorem aFix_append {l₁ l₂ : List Char} : ∀ {b : Bool},
    aFix b (l₁ ++ l₂) = true → aFix b l₁ = true := by
  induction l₁ with
  | nil => intro b _; rfl
  | cons c t ih =>
    intro b h
    rw [List.cons_append, aFix, Bool.and_eq_true] at h
    rw [aFix, Bool.and_eq_true]
    exact ⟨h.1, ih h.2⟩

/-! ## Idempotence of `minifyHtml` and its failure

`minifyHtml` trims before it removes comments, so removing a comment can
expose new trailing white space (or new line-leading white space / blank
lines); a second application then removes more.  On documents without the
substring `<!--`, comment removal is the identity in both applications and
the first three stages produce a fixed point of themselves. -/

/-- C8 counterexample: `minifyHtml` is not idempotent.  On
`"a <!--c-->"` the first application trims nothing (the comment still ends
the text) and then deletes the comment, leaving the trailing space in
`"a "`; the second application trims it away. -/
theorem minifyHtml_not_idempotent_counterexample :
    minifyHtml (minifyHtml "a <!--c-->".data) ≠ minifyHtml "a <!--c-->".data ∧
    minifyHtml "a <!--c-->".data = "a ".data ∧
    minifyHtml (minifyHtml "a <!--c-->".data) = "a".data := by decide

/-- C8 (amended): `minifyHtml` is idempotent on every document that does not
contain the substring `<!--`: for such a document no comment span is ever
removed (no stage can create a `<!--`), and the white-space normalisation of
the first application is a fixed point of the second. -/
theorem minifyHtml_idempotent_comment_free (l : List Char)
    (h : containsQuad l = false) :
    minifyHtml (minifyHtml l) = minifyHtml l := by
  have hay : aFix true (stripLineLead l) = true := aFix_stripLineLeadGo l 0 true
  have haz : aFix true (collapseNewlines (stripLineLead l)) = true :=
    aFix_collapseNewlinesGo hay
  have hcrz : (collapseNewlines (stripLineLead l)).all (neChar '\r') = true :=
    collapseNewlinesGo_no_cr (stripLineLead l) 0
  have hqy : containsQuad (stripLineLead l) = false := by
    cases hq : containsQuad (stripLineLead l) with
    | false => rfl
    | true => exact absurd (quad_stripLineLeadGo l 0 true hq) (by simp [h])
  have hqz : containsQuad (collapseNewlines (stripLineLead l)) = false := by
    cases hq : containsQuad (collapseNewlines (stripLineLead l)) with
    | false => rfl
    | true =>
      exact absurd (quad_collapseNewlinesGo (stripLineLead l) 0 hq) (by simp [hqy])
  have htw : (collapseNewlines (stripLineLead l)).takeWhile isJsSpace = [] := by
    cases hz : collapseNewlines (stripLineLead l) with
    | nil => rfl
    | cons c t =>
      rw [hz, aFix, Bool.and_eq_true] at haz
      have hcns : isJsSpace c = false := by simpa using haz.1
      rw [List.takeWhile_cons_of_neg (by simp [hcns])]
  have hzdec : collapseNewlines (stripLineLead l) =
      jsTrim (collapseNewlines (stripLineLead l)) ++
        (((collapseNewlines (stripLineLead l)).dropWhile
          isJsSpace).reverse.takeWhile isJsSpace).reverse := by
    have hd := jsTrim_decomp (collapseNewlines (stripLineLead l))
    rw [htw, List.nil_append] at hd
    exact hd
  have haR : aFix true (jsTrim (collapseNewlines (stripLineLead l))) = true := by
    rw [hzdec] at haz
    exact aFix_append haz
  have hcrR : (jsTrim (collapseNewlines (stripLineLead l))).all
      (neChar '\r') = true := by
    rw [hzdec, List.all_append, Bool.and_eq_true] at hcrz
    exact hcrz.1
  have hqR : containsQuad (jsTrim (collapseNewlines (stripLineLead l))) = false := by
    cases hq : containsQuad (jsTrim (collapseNewlines (stripLineLead l))) with
    | false => rfl
    | true =>
      have hext := containsQuad_append_right
        ((((collapseNewlines (stripLineLead l)).dropWhile
          isJsSpace).reverse.takeWhile isJsSpace).reverse) hq
      rw [← hzdec] at hext
      exact absurd hext (by simp [hqz])
  have htR : jsTrimmed (jsTrim (collapseNewlines (stripLineLead l))) = true :=
    jsTrimmed_jsTrim _
  have hfirst : minifyHtml l = jsTrim (collapseNewlines (stripLineLead l)) := by
    unfold minifyHtml removeComments
    exact removeCommentsGo_id hqR
  rw [hfirst]
  rw [minifyHtml, stripLineLead, stripLineLeadGo_id haR, collapseNewlines,
    collapseNewlinesGo_id haR hcrR, jsTrim_id htR, removeComments]
  exact removeCommentsGo_id hqR

/-- Closed witness for the comment-free idempotence at a concrete input. -/
theorem minifyHtml_idempotent_comment_free_witness :
    containsQuad "ab \n cd".data = false ∧
    minifyHtml (minifyHtml "ab \n cd".data) = minifyHtml "ab \n cd".data :=
  ⟨by decide, minifyHtml_idempotent_comment_free "ab \n cd".data (by decide)⟩

end TemplateEngine
